import Mathlib

/-!
A verification development for a terminal falling-block puzzle engine.

The definitions below are a shallow embedding of the engine's Go source:
the board (`Field`), the falling two-cell piece (`PuyoPair`), atomic move
validation with wall/floor kicks (`Game.Move`), lock-delay bookkeeping
(`Game.Drop`, `Game.HardDrop`, `Game.ShouldLock`), the chain-resolution
state machine (`Game.ProcessChainStep` with `Field.applyGravity`,
`Field.clearPuyos`, `findConnectedGroup`), and the score engine
(`Game.calculateScore`).

Modelling conventions:
* Go `int` values that are only ever non-negative (scores, counters,
  levels) are modelled as `Nat`; coordinates and rotation deltas, which
  go negative, are modelled as `Int`.  Go's `%` truncates toward zero,
  which on `Int` is `Int.tmod`.
* The mutable `*Field` grid is a total function `Position → Color`;
  every grid access in the source is bounds-guarded, so cells outside
  the board are never read or written by the embedded operations.
* Go's `rand.Rand` is modelled as a list of pre-drawn naturals
  (`rand : List Nat`); `rand.Intn n` takes the head modulo `n`.
* The recursive flood fill terminates in Go because the visited map
  grows; here it carries fuel `floodFuel`, which exceeds the number of
  board cells, so the fuel never runs out (proved below).
* Clearing a discovered group iterates over a Go map, whose iteration
  order is unspecified; since every write stores `Empty`, the net effect
  is the set-level update `clearGroup`.
* The `DropSpeed` duration field (wall-clock pacing) and the `HighScore`
  pointer (persistence collaborator) are external to the core and not
  modelled; no embedded operation reads them.
-/

namespace TerminalPuyo

/-- Cell colors, mirroring the Go `Color` enumeration; `Empty` is the
zero value. -/
inductive Color where
  | Empty
  | Red
  | Green
  | Blue
  | Yellow
  | Purple
deriving DecidableEq, Repr

/-- `FieldWidth = 6` from the Go constant block. -/
def FieldWidth : Int := 6

/-- `FieldHeight = 12` from the Go constant block. -/
def FieldHeight : Int := 12

/-- `MinChain = 4`: minimum size of a connected group that clears. -/
def MinChain : Nat := 4

/-- A board coordinate, mirroring Go's `Position` struct. -/
structure Position where
  X : Int
  Y : Int
deriving DecidableEq, Repr

/-- A single puyo, mirroring Go's `Puyo` struct. -/
structure Puyo where
  Color : Color
deriving DecidableEq, Repr

/-- The falling pair, mirroring Go's `PuyoPair`: `Pos` locates the main
puyo and `Rotate` (0..3) determines the sub puyo's offset. -/
structure PuyoPair where
  Main : Puyo
  Sub : Puyo
  Pos : Position
  Rotate : Int
deriving DecidableEq, Repr

/-- The game field.  Go declares `Grid [FieldHeight][FieldWidth]Color`;
here the grid is a total function on positions, with all in-source
accesses bounds-guarded exactly as in Go. -/
structure Field where
  Grid : Position → Color

/-- `NewField` returns the all-empty field. -/
def NewField : Field := ⟨fun _ => Color.Empty⟩

/-- In-bounds predicate for the materialized grid, matching the guard
`x >= 0 && x < FieldWidth && y >= 0 && y < FieldHeight` of `PlacePuyo`. -/
def inBounds (x y : Int) : Prop :=
  0 ≤ x ∧ x < FieldWidth ∧ 0 ≤ y ∧ y < FieldHeight

instance (x y : Int) : Decidable (inBounds x y) := by
  unfold inBounds; infer_instance

/-- `Field.IsValidPosition` from the source: x out of column range or
y below the floor is invalid; y < 0 (spawn buffer) is always valid;
otherwise the cell must be `Empty`. -/
def Field.IsValidPosition (f : Field) (x y : Int) : Bool :=
  if x < 0 ∨ FieldWidth ≤ x ∨ FieldHeight ≤ y then false
  else if y < 0 then true
  else decide (f.Grid ⟨x, y⟩ = Color.Empty)

/-- `Field.PlacePuyo`: writes the color when the position is in the
materializable range, silently no-ops otherwise. -/
def Field.PlacePuyo (f : Field) (x y : Int) (c : Color) : Field :=
  if inBounds x y then ⟨Function.update f.Grid ⟨x, y⟩ c⟩ else f

/-- `PuyoPair.GetSubPosition`: sub-cell offset as a function of the
rotation state (0 = top, 1 = right, 2 = bottom, 3 = left, default top). -/
def PuyoPair.GetSubPosition (p : PuyoPair) : Position :=
  if p.Rotate = 0 then ⟨p.Pos.X, p.Pos.Y - 1⟩
  else if p.Rotate = 1 then ⟨p.Pos.X + 1, p.Pos.Y⟩
  else if p.Rotate = 2 then ⟨p.Pos.X, p.Pos.Y + 1⟩
  else if p.Rotate = 3 then ⟨p.Pos.X - 1, p.Pos.Y⟩
  else ⟨p.Pos.X, p.Pos.Y - 1⟩

/-- The control states, in Go declaration order (`StateNormal` is the
zero value). -/
inductive GameState where
  | StateNormal
  | StateClearing
  | StateDropping
deriving DecidableEq, Repr

/-- The `Game` struct.  `DropSpeed` and the `HighScore` pointer are
external collaborators (timing, persistence) and are not modelled. -/
structure Game where
  Field : TerminalPuyo.Field
  Current : Option PuyoPair
  Next : PuyoPair
  Score : Nat
  Level : Nat
  GameOver : Bool
  Paused : Bool
  rand : List Nat
  ChainCount : Nat
  TotalChains : Nat
  LinesCleared : Nat
  State : GameState
  CurrentChainNum : Nat
  GroundFrames : Nat
  MaxGroundFrames : Nat
  ColorCount : Nat

/-- `Game.TogglePause`: rejected while resolving a chain or after
game over. -/
def Game.TogglePause (g : Game) : Game :=
  if g.State ≠ GameState.StateNormal ∨ g.GameOver = true then g
  else { g with Paused := !g.Paused }

/-- `Game.generatePuyoPair`: draws two palette indices from the random
stream; the palette has 4 colors unless `ColorCount = 5`.  Returns the
pair together with the remaining stream. -/
def Game.generatePuyoPair (g : Game) : PuyoPair × List Nat :=
  let colors : List Color :=
    if g.ColorCount = 4 then [Color.Red, Color.Green, Color.Blue, Color.Yellow]
    else [Color.Red, Color.Green, Color.Blue, Color.Yellow, Color.Purple]
  let i1 := g.rand.headD 0 % colors.length
  let r1 := g.rand.tail
  let i2 := r1.headD 0 % colors.length
  let r2 := r1.tail
  (⟨⟨colors.getD i1 Color.Empty⟩, ⟨colors.getD i2 Color.Empty⟩,
    ⟨FieldWidth / 2, 0⟩, 0⟩, r2)

/-- `Game.SpawnNewPair`: promotes `Next` to `Current`, generates a new
`Next`, resets the chain counter, and sets `GameOver` when either cell
of the spawned pair is invalid. -/
def Game.SpawnNewPair (g : Game) : Game :=
  let pr := g.generatePuyoPair
  let cur := g.Next
  let g1 := { g with Current := some cur, Next := pr.1, rand := pr.2, ChainCount := 0 }
  let subPos := cur.GetSubPosition
  if !(g1.Field.IsValidPosition cur.Pos.X cur.Pos.Y) ||
     !(g1.Field.IsValidPosition subPos.X subPos.Y) then
    { g1 with GameOver := true }
  else g1

/-- `Game.CanMove`: atomic validation of a move request — the candidate
main cell and the candidate sub cell (derived from the new rotation)
must both be valid. -/
def Game.CanMove (g : Game) (dx dy rotate : Int) : Bool :=
  match g.Current with
  | none => false
  | some cur =>
    let newX := cur.Pos.X + dx
    let newY := cur.Pos.Y + dy
    let newRotate := Int.tmod (cur.Rotate + rotate + 4) 4
    if !(g.Field.IsValidPosition newX newY) then false
    else
      let testPair : PuyoPair := ⟨⟨Color.Empty⟩, ⟨Color.Empty⟩, ⟨newX, newY⟩, newRotate⟩
      let subPos := testPair.GetSubPosition
      g.Field.IsValidPosition subPos.X subPos.Y

/-- The state change performed by an accepted move: translate the main
position and update the rotation (Go `%` on the always-positive operand
`Rotate + rotate + 4` is truncated division, `Int.tmod`).  Factored out
of `Game.Move`, which adds the lock-delay bookkeeping per branch. -/
def Game.applyStep (g : Game) (dx dy rotate : Int) : Game :=
  match g.Current with
  | none => g
  | some cur =>
    { g with Current := some { cur with
        Pos := ⟨cur.Pos.X + dx, cur.Pos.Y + dy⟩,
        Rotate := Int.tmod (cur.Rotate + rotate + 4) 4 } }

/-- `Game.Move` from the source: try the requested move; on failure of a
rotation, try the wall kicks (shift left, shift right, then shift up) in
order; an accepted move with nonzero `dx` or nonzero `rotate` resets the
ground timer (the kick branches reset it unconditionally). -/
def Game.Move (g : Game) (dx dy rotate : Int) : Bool × Game :=
  if g.CanMove dx dy rotate then
    (true, { g.applyStep dx dy rotate with
             GroundFrames := if dx ≠ 0 ∨ rotate ≠ 0 then 0 else g.GroundFrames })
  else if rotate ≠ 0 then
    if g.CanMove (dx - 1) dy rotate then
      (true, { g.applyStep (dx - 1) dy rotate with GroundFrames := 0 })
    else if g.CanMove (dx + 1) dy rotate then
      (true, { g.applyStep (dx + 1) dy rotate with GroundFrames := 0 })
    else if g.CanMove dx (dy - 1) rotate then
      (true, { g.applyStep dx (dy - 1) rotate with GroundFrames := 0 })
    else (false, g)
  else (false, g)

/-- `Game.Drop`: one downward step; on success the ground timer is reset
to 0 (as in the source), on failure the state is untouched. -/
def Game.Drop (g : Game) : Bool × Game :=
  let m := g.Move 0 1 0
  if m.1 then (true, { m.2 with GroundFrames := 0 }) else (false, m.2)

/-- `Game.IsOnGround`: the pair is grounded when it cannot move down. -/
def Game.IsOnGround (g : Game) : Bool :=
  match g.Current with
  | none => false
  | some _ => !(g.CanMove 0 1 0)

/-- `Game.ShouldLock`: the lock-delay counter has reached the
threshold. -/
def Game.ShouldLock (g : Game) : Bool :=
  decide (g.MaxGroundFrames ≤ g.GroundFrames)

/-- Termination measure for the hard-drop loop: distance of the main
cell from below the floor. -/
def dropMeasure (g : Game) : Nat :=
  match g.Current with
  | none => 0
  | some cur => (FieldHeight - cur.Pos.Y).toNat

/-- The hard-drop loop: keep applying the pure-downward move until it
fails.  It terminates because an accepted downward move strictly
increases the main cell's `Y`, which stays below `FieldHeight`. -/
def Game.hardDropLoop (g : Game) : Game :=
  if h : (g.Move 0 1 0).1 = true then (g.Move 0 1 0).2.hardDropLoop
  else g
termination_by dropMeasure g
decreasing_by
  have hm : g.CanMove 0 1 0 = true := by
    by_contra hm
    rw [Bool.not_eq_true] at hm
    simp [Game.Move, hm] at h
  obtain ⟨cur, hc, hy⟩ : ∃ cur, g.Current = some cur ∧ cur.Pos.Y + 1 < FieldHeight := by
    cases hcc : g.Current with
    | none =>
      unfold Game.CanMove at hm
      rw [hcc] at hm
      simp at hm
    | some cur =>
      refine ⟨cur, rfl, ?_⟩
      by_cases hv : g.Field.IsValidPosition cur.Pos.X (cur.Pos.Y + 1) = true
      · unfold Field.IsValidPosition at hv
        by_cases hb : cur.Pos.X < 0 ∨ FieldWidth ≤ cur.Pos.X ∨ FieldHeight ≤ cur.Pos.Y + 1
        · simp [hb] at hv
        · push_neg at hb
          exact hb.2.2
      · exfalso
        rw [Bool.not_eq_true] at hv
        simp [Game.CanMove, hcc, hv] at hm
  simp only [Game.Move, hm, if_true]
  simp only [dropMeasure, Game.applyStep, hc]
  unfold FieldHeight at hy ⊢
  omega

/-- `Game.HardDrop`: drop to the floor, then set the lock-delay counter
to the threshold, skipping the grace period. -/
def Game.HardDrop (g : Game) : Game :=
  let g1 := g.hardDropLoop
  { g1 with GroundFrames := g1.MaxGroundFrames }

/-- `Game.LockPair`: merge both cells into the field, consume the pair,
reset the ground timer, and enter the `Dropping` state with chain
counters cleared. -/
def Game.LockPair (g : Game) : Game :=
  match g.Current with
  | none => g
  | some cur =>
    let f1 := g.Field.PlacePuyo cur.Pos.X cur.Pos.Y cur.Main.Color
    let subPos := cur.GetSubPosition
    let f2 := f1.PlacePuyo subPos.X subPos.Y cur.Sub.Color
    { g with Field := f2, Current := none, GroundFrames := 0,
             State := GameState.StateDropping, ChainCount := 0, CurrentChainNum := 0 }

/-- The doubling loop from `calculateScore`: `k` remaining iterations of
`chainBonus *= 2`. -/
def chainBonusGo : Nat → Nat → Nat
  | 0, acc => acc
  | k + 1, acc => chainBonusGo k (acc * 2)

/-- `Game.calculateScore`: once per completed chain sequence of depth
`ChainCount > 0`, add `100 * 2^(d-1) * d` to the score, add `d` to the
cleared-lines total, and raise the level to `lines/10 + 1` when that is
larger.  (The `DropSpeed` update is external pacing, not modelled.) -/
def Game.calculateScore (g : Game) : Game :=
  if 0 < g.ChainCount then
    let chainBonus := chainBonusGo (g.ChainCount - 1) 1
    let score := g.Score + 100 * chainBonus * g.ChainCount
    let lines := g.LinesCleared + g.ChainCount
    let newLevel := lines / 10 + 1
    if g.Level < newLevel then
      { g with Score := score, LinesCleared := lines, Level := newLevel }
    else
      { g with Score := score, LinesCleared := lines }
  else g

/-- Descending row indices `[n-1, …, 1, 0]`, the iteration order of the
inner `applyGravity` loop. -/
def downFrom : Nat → List Int
  | 0 => []
  | n + 1 => (n : Int) :: downFrom n

/-- The inner loop of `applyGravity` for column `x`: scan rows bottom-up
(`ys`), maintaining the write cursor `writeY`; each non-empty cell is
moved down to the cursor. -/
def gravityColumn (x : Int) : List Int → Int → Field → Field
  | [], _, f => f
  | y :: ys, writeY, f =>
    if f.Grid ⟨x, y⟩ ≠ Color.Empty then
      if writeY ≠ y then
        gravityColumn x ys (writeY - 1)
          ((f.PlacePuyo x writeY (f.Grid ⟨x, y⟩)).PlacePuyo x y Color.Empty)
      else gravityColumn x ys (writeY - 1) f
    else gravityColumn x ys writeY f

/-- `applyGravity` on the field: compact every column toward the
floor. -/
def Field.applyGravity (f : Field) : Field :=
  (List.range FieldWidth.toNat).foldl
    (fun f x => gravityColumn (x : Int) (downFrom FieldHeight.toNat) (FieldHeight - 1) f) f

/-- `Game.applyGravity`. -/
def Game.applyGravity (g : Game) : Game :=
  { g with Field := g.Field.applyGravity }

/-- Fuel bound for the flood fill: one more than the number of board
cells; a productive call chain visits distinct cells, so this never
runs out. -/
def floodFuel : Nat := FieldWidth.toNat * FieldHeight.toNat + 1

/-- `findConnectedGroup` from the source: depth-first flood fill over
the 4-neighbors restricted to color `c`, threading the visited set in
the order right, left, down, up. -/
def findConnectedGroup (f : Field) (c : Color) :
    Nat → Int → Int → Finset Position → Finset Position
  | 0, _, _, visited => visited
  | fuel + 1, x, y, visited =>
    if x < 0 ∨ FieldWidth ≤ x ∨ y < 0 ∨ FieldHeight ≤ y then visited
    else if f.Grid ⟨x, y⟩ ≠ c ∨ ⟨x, y⟩ ∈ visited then visited
    else
      findConnectedGroup f c fuel x (y - 1)
        (findConnectedGroup f c fuel x (y + 1)
          (findConnectedGroup f c fuel (x - 1) y
            (findConnectedGroup f c fuel (x + 1) y
              (insert ⟨x, y⟩ visited))))

/-- All board positions in row-major order (the scan order of
`clearPuyos` and `hasClearablePuyos`). -/
def allPositions : List Position :=
  (List.range FieldHeight.toNat).flatMap
    (fun y => (List.range FieldWidth.toNat).map
      (fun x => ⟨Int.ofNat x, Int.ofNat y⟩))

/-- Remove every cell of `group` (each Go iteration writes `Empty`, so
the unspecified map order collapses to this set-level update). -/
def clearGroup (f : Field) (group : Finset Position) : Field :=
  ⟨fun p => if p ∈ group then Color.Empty else f.Grid p⟩

/-- One scan step of `clearPuyos` at position `p`, threading the field,
the global visited set, and the cleared flag. -/
def clearStep (st : Field × Finset Position × Bool) (p : Position) :
    Field × Finset Position × Bool :=
  if st.1.Grid p ≠ Color.Empty ∧ p ∉ st.2.1 then
    let group := findConnectedGroup st.1 (st.1.Grid p) floodFuel p.X p.Y ∅
    if MinChain ≤ group.card then (clearGroup st.1 group, st.2.1 ∪ group, true)
    else (st.1, st.2.1 ∪ group, st.2.2)
  else st

/-- `clearPuyos` on the field: row-major scan seeding a fresh flood fill
at each unvisited occupied cell; each discovered group of size at least
`MinChain` is removed.  Returns the cleared flag and the new field. -/
def Field.clearPuyos (f : Field) : Bool × Field :=
  let r := allPositions.foldl clearStep (f, ∅, false)
  (r.2.2, r.1)

/-- `Game.clearPuyos`. -/
def Game.clearPuyos (g : Game) : Bool × Game :=
  (g.Field.clearPuyos.1, { g with Field := g.Field.clearPuyos.2 })

/-- One scan step of `hasClearablePuyos` (no mutation; the Go early
return of `true` is modelled by accumulating the flag, which yields the
same value). -/
def hasClearableStep (f : Field) (st : Finset Position × Bool) (p : Position) :
    Finset Position × Bool :=
  if f.Grid p ≠ Color.Empty ∧ p ∉ st.1 then
    let group := findConnectedGroup f (f.Grid p) floodFuel p.X p.Y ∅
    (st.1 ∪ group, st.2 || decide (MinChain ≤ group.card))
  else st

/-- `hasClearablePuyos` on the field. -/
def Field.hasClearablePuyos (f : Field) : Bool :=
  (allPositions.foldl (hasClearableStep f) (∅, false)).2

/-- `Game.hasClearablePuyos`. -/
def Game.hasClearablePuyos (g : Game) : Bool :=
  g.Field.hasClearablePuyos

/-- `Game.ProcessChainStep`: one step of the resolution state machine.
`Dropping`: apply gravity; if a clearable group exists, bump the chain
depth and go to `Clearing`, else finalize the score, return to `Normal`
and spawn.  `Clearing`: clear the groups, count a successful pass in
`TotalChains`, and go back to `Dropping`.  Any other state: no-op. -/
def Game.ProcessChainStep (g : Game) : Bool × Game :=
  match g.State with
  | GameState.StateDropping =>
    if g.applyGravity.hasClearablePuyos then
      (true, { g.applyGravity with
               State := GameState.StateClearing,
               ChainCount := g.applyGravity.ChainCount + 1,
               CurrentChainNum := g.applyGravity.ChainCount + 1 })
    else
      (false, ({ g.applyGravity.calculateScore with
                 State := GameState.StateNormal }).SpawnNewPair)
  | GameState.StateClearing =>
    if g.clearPuyos.1 then
      (true, { g.clearPuyos.2 with
               TotalChains := g.clearPuyos.2.TotalChains + 1,
               State := GameState.StateDropping })
    else
      (true, { g.clearPuyos.2 with State := GameState.StateDropping })
  | GameState.StateNormal => (false, g)

/-- `NewGameWithColors`, with the random source supplied as a stream:
invalid palette sizes coerce to 4; the lock-delay threshold is 32. -/
def NewGameWithColors (colorCount : Nat) (r : List Nat) : Game :=
  let cc := if colorCount ≠ 4 ∧ colorCount ≠ 5 then 4 else colorCount
  let g0 : Game :=
    { Field := NewField, Current := none,
      Next := ⟨⟨Color.Empty⟩, ⟨Color.Empty⟩, ⟨0, 0⟩, 0⟩,
      Score := 0, Level := 1, GameOver := false, Paused := false, rand := r,
      ChainCount := 0, TotalChains := 0, LinesCleared := 0,
      State := GameState.StateNormal, CurrentChainNum := 0,
      GroundFrames := 0, MaxGroundFrames := 32, ColorCount := cc }
  let pr := g0.generatePuyoPair
  ({ g0 with Next := pr.1, rand := pr.2 }).SpawnNewPair

/-- `NewGame` defaults to 4 colors. -/
def NewGame (r : List Nat) : Game := NewGameWithColors 4 r

/-! ### Specification-side definitions

`moveKickSpec` restates §4.2 of the specification verbatim, to be
compared with the source-derived `Game.Move`: the candidate list is the
base `(dx, dy)`, followed — only for rotating requests — by the kick
shifts `(-1, 0)`, `(+1, 0)`, `(0, -1)` on top of `(dx, dy)`, in that
order; the first candidate whose main and sub cells both validate is
applied; otherwise the request fails with no state change.  An applied
candidate resets the lock-delay counter exactly when its horizontal
delta or the rotation is nonzero. -/

/-- The ordered candidate list of §4.2. -/
def kickCandidates (dx dy rotate : Int) : List (Int × Int) :=
  (dx, dy) :: (if rotate ≠ 0 then [(dx - 1, dy), (dx + 1, dy), (dx, dy - 1)] else [])

/-- Apply one accepted candidate, with the §4.2 lock-delay reset rule. -/
def applyCandidate (g : Game) (c : Int × Int) (rotate : Int) : Game :=
  { g.applyStep c.1 c.2 rotate with
    GroundFrames := if c.1 ≠ 0 ∨ rotate ≠ 0 then 0 else g.GroundFrames }

/-- The §4.2 description of a move request. -/
def moveKickSpec (g : Game) (dx dy rotate : Int) : Bool × Game :=
  match (kickCandidates dx dy rotate).find? (fun c => g.CanMove c.1 c.2 rotate) with
  | some c => (true, applyCandidate g c rotate)
  | none => (false, g)

/-! ### Sample states used by counterexamples and witnesses -/

/-- A game mid-fall on an empty board: current pair at (3,5), rotation 0. -/
def baseGame : Game :=
  { Field := NewField,
    Current := some ⟨⟨Color.Red⟩, ⟨Color.Blue⟩, ⟨3, 5⟩, 0⟩,
    Next := ⟨⟨Color.Red⟩, ⟨Color.Blue⟩, ⟨3, 0⟩, 0⟩,
    Score := 0, Level := 1, GameOver := false, Paused := false, rand := [],
    ChainCount := 0, TotalChains := 0, LinesCleared := 0,
    State := GameState.StateNormal, CurrentChainNum := 0,
    GroundFrames := 0, MaxGroundFrames := 32, ColorCount := 4 }

/-- The same state with game over set. -/
def gameOverGame : Game := { baseGame with GameOver := true }

/-- The same state with a partially elapsed lock-delay counter. -/
def groundFrames5Game : Game := { baseGame with GroundFrames := 5 }

/-- The same state with the pair against the left wall. -/
def wallGame : Game :=
  { baseGame with Current := some ⟨⟨Color.Red⟩, ⟨Color.Blue⟩, ⟨0, 5⟩, 0⟩ }

/-- The same state with a pending chain depth of 3. -/
def chainGame : Game := { baseGame with ChainCount := 3 }

/-- A field holding a horizontal 4-group of red on the floor and a
separate vertical 3-group of blue in the last column. -/
def mixedField : Field :=
  ⟨fun p =>
    if p.Y = 11 ∧ (p.X = 0 ∨ p.X = 1 ∨ p.X = 2 ∨ p.X = 3) then Color.Red
    else if p.X = 5 ∧ (p.Y = 9 ∨ p.Y = 10 ∨ p.Y = 11) then Color.Blue
    else Color.Empty⟩

/-- A field with some occupied cells (used to show that validity in the
spawn buffer ignores the grid contents). -/
def occupiedField : Field := mixedField

/-- `baseGame` over `mixedField`, in the `Clearing` state. -/
def clearingGame : Game :=
  { baseGame with Field := mixedField, State := GameState.StateClearing }

/-! ### Semantic connectivity (for the clearing proofs)

`reaches` is the mathematical notion of 4-neighbor connectivity through
same-colored in-bounds cells, against which the source's flood fill and
`clearPuyos` are verified. -/

/-- 4-neighbor adjacency. -/
def adjacent (p q : Position) : Prop :=
  (q.X = p.X + 1 ∧ q.Y = p.Y) ∨ (q.X = p.X - 1 ∧ q.Y = p.Y) ∨
  (q.X = p.X ∧ q.Y = p.Y + 1) ∨ (q.X = p.X ∧ q.Y = p.Y - 1)

/-- A cell that participates in a `c`-colored group: in bounds and
holding color `c`. -/
def isGood (f : Field) (c : Color) (p : Position) : Prop :=
  inBounds p.X p.Y ∧ f.Grid p = c

/-- One step between two adjacent `c`-colored cells. -/
def sameColorStep (f : Field) (c : Color) (p q : Position) : Prop :=
  isGood f c p ∧ isGood f c q ∧ adjacent p q

/-- Connectivity: the reflexive-transitive closure of same-color
steps. -/
def reaches (f : Field) (c : Color) : Position → Position → Prop :=
  Relation.ReflTransGen (sameColorStep f c)

/-- The connected group (component) of the cell `p`, through cells of
`p`'s own color. -/
def comp (f : Field) (p : Position) : Set Position :=
  {q | reaches f (f.Grid p) p q}

/-- The in-bounds cells holding color `c`. -/
def goodCells (f : Field) (c : Color) : Finset Position :=
  allPositions.toFinset.filter (fun p => f.Grid p = c)

/-! ### Auxiliary notions for the gravity proofs -/

/-- Number of occupied cells of column `x` among the rows `[0, n)`. -/
def colCount (f : Field) (x : Int) (n : Nat) : Nat :=
  (downFrom n).countP (fun y => decide (f.Grid ⟨x, y⟩ ≠ Color.Empty))

/-- One column pass of `applyGravity`, with the loop bounds evaluated
(`FieldHeight.toNat = 12`, `FieldHeight - 1 = 11`). -/
def gravityStep (f : Field) (x : Nat) : Field :=
  gravityColumn (x : Int) (downFrom 12) 11 f

/-- A column is compacted when every cell below an occupied cell is
occupied. -/
def compactedCol (f : Field) (x : Int) : Prop :=
  ∀ z z' : Int, 0 ≤ z → z ≤ z' → z' < FieldHeight →
    f.Grid ⟨x, z⟩ ≠ Color.Empty → f.Grid ⟨x, z'⟩ ≠ Color.Empty

/-- Invariant of the `clearPuyos` scan relative to the original field
`f`: the visited set is a union of complete components of occupied
in-bounds cells of `f`, and the working field holds `Empty` exactly at
the visited cells whose component reached `MinChain`, agreeing with `f`
everywhere else. -/
def clearInv (f : Field) (st : Field × Finset Position × Bool) : Prop :=
  (∀ q ∈ st.2.1, inBounds q.X q.Y ∧ f.Grid q ≠ Color.Empty ∧ comp f q ⊆ ↑st.2.1) ∧
  ∀ q : Position,
    (q ∈ st.2.1 ∧ MinChain ≤ (comp f q).ncard → st.1.Grid q = Color.Empty) ∧
    (¬(q ∈ st.2.1 ∧ MinChain ≤ (comp f q).ncard) → st.1.Grid q = f.Grid q)

/-! ## Theorems -/

/-- A valid position has `y < FieldHeight`. -/
theorem IsValidPosition_lt_height {f : Field} {x y : Int}
    (h : f.IsValidPosition x y = true) : y < FieldHeight := by
  unfold Field.IsValidPosition at h
  by_cases hc : x < 0 ∨ FieldWidth ≤ x ∨ FieldHeight ≤ y
  · simp [hc] at h
  · push_neg at hc
    exact hc.2.2

/-- C1 (counterexample): with `GameOver` set, `Move` still accepts and
mutates the piece position — the core does not consult the flag. -/
theorem Move_ignores_gameOver_cex :
    gameOverGame.GameOver = true ∧
    (gameOverGame.Move (-1) 0 0).1 = true ∧
    (gameOverGame.Move (-1) 0 0).2.Current ≠ gameOverGame.Current := by
  decide

/-- C1 (amended): the game-over gate lives in the driver, not the core;
what the core guarantees is that `ProcessChainStep` is a no-op in the
`Normal` state — the state in force whenever a blocked spawn has just
set `GameOver` — returning `false` with the state unchanged. -/
theorem ProcessChainStep_normal_noop (g : Game)
    (h : g.State = GameState.StateNormal) : g.ProcessChainStep = (false, g) := by
  unfold Game.ProcessChainStep
  rw [h]

/-- C1 (witness): the no-op at the concrete game-over state. -/
theorem ProcessChainStep_normal_noop_witness :
    gameOverGame.ProcessChainStep = (false, gameOverGame) :=
  ProcessChainStep_normal_noop gameOverGame rfl

/-- C2 (counterexample): a successful `Drop` resets the lock-delay
counter to 0 even though the move is purely downward. -/
theorem Drop_resets_groundFrames_cex :
    groundFrames5Game.GroundFrames = 5 ∧
    groundFrames5Game.Drop.1 = true ∧
    groundFrames5Game.Drop.2.GroundFrames = 0 := by
  decide

/-- C2 (amended): an accepted `Move` resets `GroundFrames` to 0 exactly
when `dx ≠ 0` or the rotation is nonzero, and otherwise leaves it
unchanged; `Drop`, however, additionally resets the counter to 0 on
every successful downward step. -/
theorem Move_groundFrames_reset_iff :
    (∀ (g : Game) (dx dy rotate : Int), (g.Move dx dy rotate).1 = true →
      (g.Move dx dy rotate).2.GroundFrames =
        if dx ≠ 0 ∨ rotate ≠ 0 then 0 else g.GroundFrames) ∧
    (∀ g : Game, g.Drop.1 = true → g.Drop.2.GroundFrames = 0) := by
  constructor
  · intro g dx dy rotate h
    unfold Game.Move at h ⊢
    by_cases h0 : g.CanMove dx dy rotate = true
    · simp [h0]
    · by_cases hr : rotate ≠ 0
      · by_cases h1 : g.CanMove (dx - 1) dy rotate = true
        · simp [h0, hr, h1]
        · by_cases h2 : g.CanMove (dx + 1) dy rotate = true
          · simp [h0, hr, h1, h2]
          · by_cases h3 : g.CanMove dx (dy - 1) rotate = true
            · simp [h0, hr, h1, h2, h3]
            · simp [h0, hr, h1, h2, h3] at h
      · simp [h0, hr] at h
  · intro g h
    unfold Game.Drop at h ⊢
    by_cases hm : (g.Move 0 1 0).1 = true
    · simp [hm]
    · rw [Bool.not_eq_true] at hm
      simp [hm] at h

/-- C2 (witness): at the concrete state, an accepted purely-downward
`Move` keeps the counter while `Drop` zeroes it. -/
theorem Move_groundFrames_reset_iff_witness :
    (groundFrames5Game.Move 0 1 0).2.GroundFrames = groundFrames5Game.GroundFrames ∧
    groundFrames5Game.Drop.2.GroundFrames = 0 := by
  constructor
  · have h := Move_groundFrames_reset_iff.1 groundFrames5Game 0 1 0 (by decide)
    simpa using h
  · exact Move_groundFrames_reset_iff.2 groundFrames5Game (by decide)

/-- C3 (counterexample): in the spawn buffer (`y < 0`), a coordinate
with `x` outside the column range is reported invalid, not valid. -/
theorem IsValidPosition_buffer_x_cex :
    NewField.IsValidPosition (-1) (-1) = false := by decide

/-- C3 (amended): for `y < 0` the query ignores the grid contents and
returns exactly the column-range check `0 ≤ x < FieldWidth`; x outside
the columns is invalid even in the spawn buffer. -/
theorem IsValidPosition_buffer_char (f : Field) (x y : Int) (h : y < 0) :
    f.IsValidPosition x y = decide (0 ≤ x ∧ x < FieldWidth) := by
  unfold Field.IsValidPosition FieldWidth FieldHeight
  by_cases hb : x < 0 ∨ (6 : Int) ≤ x ∨ (12 : Int) ≤ y
  · rw [if_pos hb]
    symm
    rw [decide_eq_false_iff_not]
    omega
  · rw [if_neg hb, if_pos h]
    symm
    rw [decide_eq_true_eq]
    push_neg at hb
    omega

/-- C3 (witness): a buffer cell above an occupied column of a non-empty
field is valid. -/
theorem IsValidPosition_buffer_char_witness :
    occupiedField.IsValidPosition 2 (-3) = true := by
  have h := IsValidPosition_buffer_char occupiedField 2 (-3) (by decide)
  simpa using h

/-- C4: a move request that returns `false` — including after all kick
attempts fail — leaves the whole game state unchanged. -/
theorem Move_failure_no_mutation (g : Game) (dx dy rotate : Int)
    (h : (g.Move dx dy rotate).1 = false) : (g.Move dx dy rotate).2 = g := by
  unfold Game.Move at h ⊢
  by_cases h0 : g.CanMove dx dy rotate = true
  · simp [h0] at h
  · by_cases hr : rotate ≠ 0
    · by_cases h1 : g.CanMove (dx - 1) dy rotate = true
      · simp [h0, hr, h1] at h
      · by_cases h2 : g.CanMove (dx + 1) dy rotate = true
        · simp [h0, hr, h1, h2] at h
        · by_cases h3 : g.CanMove dx (dy - 1) rotate = true
          · simp [h0, hr, h1, h2, h3] at h
          · simp [h0, hr, h1, h2, h3]
    · simp [h0, hr]

/-- C4 (witness): a rejected move against the left wall changes
nothing. -/
theorem Move_failure_no_mutation_witness :
    (wallGame.Move (-1) 0 0).2 = wallGame :=
  Move_failure_no_mutation wallGame (-1) 0 0 (by decide)

/-- C5: `Game.Move` coincides with the §4.2 description: the base
candidate first; kicks only for rotating requests, in the strict order
(-1,0), (+1,0), (0,-1) on top of (dx,dy); the first fully validating
candidate is applied; otherwise failure with no state change. -/
theorem Move_refines_kickSpec (g : Game) (dx dy rotate : Int) :
    g.Move dx dy rotate = moveKickSpec g dx dy rotate := by
  unfold Game.Move moveKickSpec kickCandidates applyCandidate
  by_cases h0 : g.CanMove dx dy rotate = true
  · simp [h0, List.find?]
  · by_cases hr : rotate ≠ 0
    · by_cases h1 : g.CanMove (dx - 1) dy rotate = true
      · simp [h0, hr, h1, List.find?]
      · by_cases h2 : g.CanMove (dx + 1) dy rotate = true
        · simp [h0, hr, h1, h2, List.find?]
        · by_cases h3 : g.CanMove dx (dy - 1) rotate = true
          · simp [h0, hr, h1, h2, h3, List.find?]
          · simp [h0, hr, h1, h2, h3, List.find?]
    · simp [h0, hr, List.find?]

/-- `applyStep` changes only the current pair. -/
theorem applyStep_preserves (g : Game) (dx dy rotate : Int) :
    (g.applyStep dx dy rotate).MaxGroundFrames = g.MaxGroundFrames ∧
    (g.applyStep dx dy rotate).TotalChains = g.TotalChains ∧
    (g.applyStep dx dy rotate).Field = g.Field := by
  cases hc : g.Current <;> simp [Game.applyStep, hc]

/-- `Move` changes neither the lock threshold, nor the chain total, nor
the board. -/
theorem Move_preserves (g : Game) (dx dy rotate : Int) :
    (g.Move dx dy rotate).2.MaxGroundFrames = g.MaxGroundFrames ∧
    (g.Move dx dy rotate).2.TotalChains = g.TotalChains ∧
    (g.Move dx dy rotate).2.Field = g.Field := by
  unfold Game.Move
  by_cases h0 : g.CanMove dx dy rotate = true
  · simpa [h0] using applyStep_preserves g dx dy rotate
  · by_cases hr : rotate ≠ 0
    · by_cases h1 : g.CanMove (dx - 1) dy rotate = true
      · simpa [h0, hr, h1] using applyStep_preserves g (dx - 1) dy rotate
      · by_cases h2 : g.CanMove (dx + 1) dy rotate = true
        · simpa [h0, hr, h1, h2] using applyStep_preserves g (dx + 1) dy rotate
        · by_cases h3 : g.CanMove dx (dy - 1) rotate = true
          · simpa [h0, hr, h1, h2, h3] using applyStep_preserves g dx (dy - 1) rotate
          · simp [h0, hr, h1, h2, h3]
    · simp [h0, hr]

/-- A move request that reports failure had its base candidate fail. -/
theorem Move_false_canMove (g : Game) (dx dy rotate : Int)
    (h : (g.Move dx dy rotate).1 = false) : g.CanMove dx dy rotate = false := by
  by_contra hc
  rw [Bool.not_eq_false] at hc
  simp [Game.Move, hc] at h

/-- `CanMove` depends only on the current pair and the board. -/
theorem CanMove_congr (g g' : Game) (hc : g.Current = g'.Current)
    (hf : g.Field = g'.Field) (dx dy rotate : Int) :
    g.CanMove dx dy rotate = g'.CanMove dx dy rotate := by
  unfold Game.CanMove
  rw [hc, hf]

/-- The hard-drop loop preserves the lock threshold and chain total,
and ends with the pure-downward move failing. -/
theorem hardDropLoop_preserves (g : Game) :
    g.hardDropLoop.MaxGroundFrames = g.MaxGroundFrames ∧
    g.hardDropLoop.TotalChains = g.TotalChains ∧
    (g.hardDropLoop.Move 0 1 0).1 = false := by
  induction g using Game.hardDropLoop.induct with
  | case1 g h ih =>
    unfold Game.hardDropLoop
    rw [dif_pos h]
    obtain ⟨ih1, ih2, ih3⟩ := ih
    obtain ⟨m1, m2, _⟩ := Move_preserves g 0 1 0
    exact ⟨ih1.trans m1, ih2.trans m2, ih3⟩
  | case2 g h =>
    unfold Game.hardDropLoop
    rw [dif_neg h]
    rw [Bool.not_eq_true] at h
    exact ⟨rfl, rfl, h⟩

/-- C8: `HardDrop` repeatedly applies the pure-downward move until it
fails (afterwards the pair cannot descend), then sets the lock-delay
counter to exactly the threshold `32`, so `ShouldLock` is true with no
remaining grace frames. -/
theorem HardDrop_skips_grace (g : Game) (hM : g.MaxGroundFrames = 32) :
    g.HardDrop.GroundFrames = 32 ∧ g.HardDrop.ShouldLock = true ∧
    g.HardDrop.CanMove 0 1 0 = false := by
  obtain ⟨hmax, _, hmv⟩ := hardDropLoop_preserves g
  refine ⟨?_, ?_, ?_⟩
  · show g.hardDropLoop.MaxGroundFrames = 32
    rw [hmax, hM]
  · simp [Game.HardDrop, Game.ShouldLock]
  · have hcm := Move_false_canMove _ 0 1 0 hmv
    have hcongr := CanMove_congr g.HardDrop g.hardDropLoop rfl rfl 0 1 0
    rw [hcongr, hcm]

/-- C8 (witness): at the concrete mid-air state. -/
theorem HardDrop_skips_grace_witness :
    baseGame.HardDrop.GroundFrames = 32 ∧ baseGame.HardDrop.ShouldLock = true ∧
    baseGame.HardDrop.CanMove 0 1 0 = false :=
  HardDrop_skips_grace baseGame rfl

/-- The doubling loop computes `acc * 2 ^ k`. -/
theorem chainBonusGo_eq (k : Nat) : ∀ acc, chainBonusGo k acc = acc * 2 ^ k := by
  induction k with
  | zero => intro acc; simp [chainBonusGo]
  | succ k ih =>
    intro acc
    rw [show chainBonusGo (k + 1) acc = chainBonusGo k (acc * 2) from rfl, ih]
    ring

/-- C7: finalizing a chain sequence of depth `d > 0` adds exactly
`100 * d * 2^(d-1)` to the score, adds `d` to the cleared-lines total,
and sets the level to `total/10 + 1` (given the invariant — true in all
reachable states — that the level never exceeds that formula before the
update). -/
theorem calculateScore_formula (g : Game) (hd : 0 < g.ChainCount)
    (hl : g.Level ≤ g.LinesCleared / 10 + 1) :
    g.calculateScore.Score =
      g.Score + 100 * g.ChainCount * 2 ^ (g.ChainCount - 1) ∧
    g.calculateScore.LinesCleared = g.LinesCleared + g.ChainCount ∧
    g.calculateScore.Level = (g.LinesCleared + g.ChainCount) / 10 + 1 := by
  have h10 : g.LinesCleared / 10 ≤ (g.LinesCleared + g.ChainCount) / 10 :=
    Nat.div_le_div_right (Nat.le_add_right _ _)
  unfold Game.calculateScore
  rw [if_pos hd]
  simp only [chainBonusGo_eq]
  by_cases hlv : g.Level < (g.LinesCleared + g.ChainCount) / 10 + 1
  · rw [if_pos hlv]
    refine ⟨?_, rfl, rfl⟩
    ring
  · rw [if_neg hlv]
    refine ⟨by ring, rfl, ?_⟩
    show g.Level = (g.LinesCleared + g.ChainCount) / 10 + 1
    omega

/-- C7 (witness): depth 3 from a fresh score adds 1200. -/
theorem calculateScore_formula_witness :
    chainGame.calculateScore.Score =
      chainGame.Score + 100 * chainGame.ChainCount * 2 ^ (chainGame.ChainCount - 1) ∧
    chainGame.calculateScore.LinesCleared =
      chainGame.LinesCleared + chainGame.ChainCount ∧
    chainGame.calculateScore.Level =
      (chainGame.LinesCleared + chainGame.ChainCount) / 10 + 1 :=
  calculateScore_formula chainGame (by decide) (by decide)

/-- `calculateScore` does not touch the chain total. -/
theorem calculateScore_totalChains (g : Game) :
    g.calculateScore.TotalChains = g.TotalChains := by
  simp only [Game.calculateScore]
  repeat' split
  all_goals rfl

/-- `SpawnNewPair` does not touch the chain total. -/
theorem SpawnNewPair_totalChains (g : Game) :
    g.SpawnNewPair.TotalChains = g.TotalChains := by
  simp only [Game.SpawnNewPair]
  repeat' split
  all_goals rfl

/-- `LockPair` does not touch the chain total. -/
theorem LockPair_totalChains (g : Game) :
    g.LockPair.TotalChains = g.TotalChains := by
  cases hc : g.Current <;> simp [Game.LockPair, hc]

/-- The game-level `clearPuyos`, written out. -/
theorem clearPuyosGame_eq (g : Game) :
    g.clearPuyos =
      (g.Field.clearPuyos.1, { g with Field := g.Field.clearPuyos.2 }) := rfl

/-- The game-level `applyGravity` as a record update. -/
theorem applyGravity_eq (g : Game) :
    g.applyGravity = { g with Field := g.Field.applyGravity } := rfl

/-- Finalizing and spawning does not touch the chain total. -/
theorem spawnScore_totalChains (g : Game) :
    ({ g.calculateScore with
       State := GameState.StateNormal }).SpawnNewPair.TotalChains = g.TotalChains := by
  rw [SpawnNewPair_totalChains]
  show g.calculateScore.TotalChains = g.TotalChains
  rw [calculateScore_totalChains]

/-- Unfolding of `ProcessChainStep` in the `Clearing` state. -/
theorem processChainStep_clearing_eq (g : Game)
    (h : g.State = GameState.StateClearing) :
    g.ProcessChainStep =
      if g.clearPuyos.1 then
        (true, { g.clearPuyos.2 with
                 TotalChains := g.clearPuyos.2.TotalChains + 1,
                 State := GameState.StateDropping })
      else (true, { g.clearPuyos.2 with State := GameState.StateDropping }) := by
  unfold Game.ProcessChainStep
  rw [h]

/-- Unfolding of `ProcessChainStep` in the `Dropping` state. -/
theorem processChainStep_dropping_eq (g : Game)
    (h : g.State = GameState.StateDropping) :
    g.ProcessChainStep =
      if g.applyGravity.hasClearablePuyos then
        (true, { g.applyGravity with
                 State := GameState.StateClearing,
                 ChainCount := g.applyGravity.ChainCount + 1,
                 CurrentChainNum := g.applyGravity.ChainCount + 1 })
      else
        (false, ({ g.applyGravity.calculateScore with
                   State := GameState.StateNormal }).SpawnNewPair) := by
  unfold Game.ProcessChainStep
  rw [h]

set_option maxRecDepth 8000 in
/-- C10: `TotalChains` increases by exactly 1 on a `ProcessChainStep`
taken in the `Clearing` state whose clearing pass removed a group
(`clearPuyos` reported `true`), and is unchanged by a `Dropping` step,
a `Normal` step, and every other core operation — movement, drop, hard
drop, locking, spawning, and pause toggling. -/
theorem TotalChains_characterization :
    (∀ g : Game, g.State = GameState.StateClearing →
      g.ProcessChainStep.2.TotalChains =
        g.TotalChains + (if g.clearPuyos.1 = true then 1 else 0)) ∧
    (∀ g : Game, g.State = GameState.StateDropping →
      g.ProcessChainStep.2.TotalChains = g.TotalChains) ∧
    (∀ g : Game, g.State = GameState.StateNormal →
      g.ProcessChainStep.2.TotalChains = g.TotalChains) ∧
    (∀ (g : Game) (dx dy rotate : Int),
      (g.Move dx dy rotate).2.TotalChains = g.TotalChains) ∧
    (∀ g : Game, g.Drop.2.TotalChains = g.TotalChains) ∧
    (∀ g : Game, g.HardDrop.TotalChains = g.TotalChains) ∧
    (∀ g : Game, g.LockPair.TotalChains = g.TotalChains) ∧
    (∀ g : Game, g.SpawnNewPair.TotalChains = g.TotalChains) ∧
    (∀ g : Game, g.TogglePause.TotalChains = g.TotalChains) := by
  refine ⟨?_, ?_, ?_, ?_, ?_, ?_, LockPair_totalChains, SpawnNewPair_totalChains, ?_⟩
  · intro g h
    rw [processChainStep_clearing_eq g h]
    cases hb : g.clearPuyos.1
    · simp only [Bool.false_eq_true, if_false]
      show g.clearPuyos.2.TotalChains = g.TotalChains + 0
      rw [clearPuyosGame_eq]
      rfl
    · simp only [eq_self_iff_true, if_true]
      show g.clearPuyos.2.TotalChains + 1 = g.TotalChains + 1
      rw [clearPuyosGame_eq]
  · intro g h
    rw [processChainStep_dropping_eq g h]
    cases hcl : g.applyGravity.hasClearablePuyos
    · simp only [Bool.false_eq_true, if_false]
      show ({ g.applyGravity.calculateScore with
              State := GameState.StateNormal }).SpawnNewPair.TotalChains = g.TotalChains
      rw [SpawnNewPair_totalChains]
      show g.applyGravity.calculateScore.TotalChains = g.TotalChains
      rw [calculateScore_totalChains]
      rw [applyGravity_eq]
    · simp only [eq_self_iff_true, if_true]
      show g.applyGravity.TotalChains = g.TotalChains
      rw [applyGravity_eq]
  · intro g h
    unfold Game.ProcessChainStep
    rw [h]
  · intro g dx dy rotate
    exact (Move_preserves g dx dy rotate).2.1
  · intro g
    unfold Game.Drop
    by_cases hm : (g.Move 0 1 0).1 = true
    · simp only [hm, if_true]
      exact (Move_preserves g 0 1 0).2.1
    · rw [Bool.not_eq_true] at hm
      simp only [hm, Bool.false_eq_true, if_false]
      exact (Move_preserves g 0 1 0).2.1
  · intro g
    show g.hardDropLoop.TotalChains = g.TotalChains
    exact (hardDropLoop_preserves g).2.1
  · intro g
    unfold Game.TogglePause
    split <;> rfl

set_option maxRecDepth 10000 in
/-- C10 (witness): a clearing pass that removes a group bumps the
total; a step in the normal state leaves it unchanged. -/
theorem TotalChains_characterization_witness :
    clearingGame.ProcessChainStep.2.TotalChains = clearingGame.TotalChains + 1 ∧
    baseGame.ProcessChainStep.2.TotalChains = baseGame.TotalChains := by
  constructor
  · have h := TotalChains_characterization.1 clearingGame rfl
    rw [h, show clearingGame.clearPuyos.1 = true from by decide]
    simp
  · exact TotalChains_characterization.2.2.1 baseGame rfl

/-- Pointwise description of `PlacePuyo`. -/
theorem PlacePuyo_grid (f : Field) (x y : Int) (c : Color) (p : Position) :
    (f.PlacePuyo x y c).Grid p =
      if inBounds x y ∧ p = ⟨x, y⟩ then c else f.Grid p := by
  unfold Field.PlacePuyo
  by_cases h : inBounds x y
  · rw [if_pos h]
    show Function.update f.Grid ⟨x, y⟩ c p = _
    rw [Function.update_apply]
    by_cases hp : p = (⟨x, y⟩ : Position)
    · rw [if_pos hp, if_pos ⟨h, hp⟩]
    · rw [if_neg hp, if_neg (fun hh => hp hh.2)]
  · rw [if_neg h, if_neg (fun hh => h hh.1)]

/-- `downFrom` unfolding. -/
theorem downFrom_succ (n : Nat) : downFrom (n + 1) = (n : Int) :: downFrom n := rfl

/-- The column count over no rows is zero. -/
theorem colCount_zero (f : Field) (x : Int) : colCount f x 0 = 0 := rfl

/-- The column count over `n + 1` rows counts row `n` and the rows
below `n`. -/
theorem colCount_succ (f : Field) (x : Int) (n : Nat) :
    colCount f x (n + 1) =
      colCount f x n + (if f.Grid ⟨x, (n : Int)⟩ ≠ Color.Empty then 1 else 0) := by
  unfold colCount
  rw [downFrom_succ, List.countP_cons]
  by_cases h : f.Grid ⟨x, (n : Int)⟩ ≠ Color.Empty
  · simp [h]
  · simp [h]

/-- Membership in `downFrom`. -/
theorem mem_downFrom (n : Nat) : ∀ z : Int, z ∈ downFrom n ↔ 0 ≤ z ∧ z < (n : Int) := by
  induction n with
  | zero =>
    intro z
    simp only [downFrom, List.not_mem_nil, false_iff]
    push_cast
    omega
  | succ n ihn =>
    intro z
    rw [downFrom_succ]
    simp only [List.mem_cons, ihn]
    push_cast
    constructor
    · rintro (rfl | ⟨h1, h2⟩) <;> omega
    · rintro ⟨h1, h2⟩
      by_cases hz : z = (n : Int)
      · exact Or.inl hz
      · exact Or.inr ⟨h1, by omega⟩

/-- `gravityColumn` on a cons cell, written out. -/
theorem gravityColumn_cons (x y : Int) (ys : List Int) (writeY : Int) (f : Field) :
    gravityColumn x (y :: ys) writeY f =
      if f.Grid ⟨x, y⟩ ≠ Color.Empty then
        if writeY ≠ y then
          gravityColumn x ys (writeY - 1)
            ((f.PlacePuyo x writeY (f.Grid ⟨x, y⟩)).PlacePuyo x y Color.Empty)
        else gravityColumn x ys (writeY - 1) f
      else gravityColumn x ys writeY f := rfl

/-- Column counts agree when the two fields agree on the counted rows. -/
theorem colCount_congr (f f2 : Field) (x : Int) (n : Nat)
    (h : ∀ z : Int, 0 ≤ z → z < (n : Int) → f2.Grid ⟨x, z⟩ = f.Grid ⟨x, z⟩) :
    colCount f2 x n = colCount f x n := by
  unfold colCount
  refine List.countP_congr ?_
  intro z hz
  rw [mem_downFrom] at hz
  rw [h z hz.1 hz.2]

/-- The behavior of one full inner `applyGravity` loop on column `x`:
rows above the final cursor position end empty, rows from the cursor
down to the original cursor end occupied, and nothing else changes. -/
theorem gravityColumn_spec (x : Int) (hx1 : 0 ≤ x) (hx2 : x < 6) (n : Nat) :
    ∀ (writeY : Int) (f : Field),
      (n : Int) ≤ writeY + 1 →
      writeY < 12 →
      (∀ z : Int, (n : Int) ≤ z → z ≤ writeY → f.Grid ⟨x, z⟩ = Color.Empty) →
      (∀ p : Position, p.X ≠ x →
        (gravityColumn x (downFrom n) writeY f).Grid p = f.Grid p) ∧
      (∀ z : Int, writeY < z ∨ z < 0 →
        (gravityColumn x (downFrom n) writeY f).Grid ⟨x, z⟩ = f.Grid ⟨x, z⟩) ∧
      (∀ z : Int, 0 ≤ z → z ≤ writeY - (colCount f x n : Int) →
        (gravityColumn x (downFrom n) writeY f).Grid ⟨x, z⟩ = Color.Empty) ∧
      (∀ z : Int, writeY - (colCount f x n : Int) < z → z ≤ writeY →
        (gravityColumn x (downFrom n) writeY f).Grid ⟨x, z⟩ ≠ Color.Empty) := by
  induction n with
  | zero =>
    intro writeY f hP1 hY hP2
    refine ⟨fun p _ => rfl, fun z _ => rfl, ?_, ?_⟩
    · intro z hz1 hz2
      rw [colCount_zero] at hz2
      show f.Grid ⟨x, z⟩ = Color.Empty
      refine hP2 z (by push_cast; omega) (by push_cast at hz2; omega)
    · intro z hz1 hz2
      rw [colCount_zero] at hz1
      exfalso
      push_cast at hz1
      omega
  | succ n ih =>
    intro writeY f hP1 hY hP2
    push_cast at hP1
    rw [downFrom_succ, gravityColumn_cons]
    by_cases hE : f.Grid ⟨x, (n : Int)⟩ = Color.Empty
    · rw [if_neg (fun hh => hh hE)]
      have hcnt : colCount f x (n + 1) = colCount f x n := by
        rw [colCount_succ, if_neg (fun hh => hh hE)]
        omega
      obtain ⟨ih0, ih1, ih2a, ih2b⟩ := ih writeY f (by omega) hY
        (fun z hz1 hz2 => by
          by_cases hzn : z = (n : Int)
          · rw [hzn]; exact hE
          · exact hP2 z (by push_cast; omega) hz2)
      rw [hcnt]
      exact ⟨ih0, ih1, ih2a, ih2b⟩
    · rw [if_pos hE]
      have hcnt : colCount f x (n + 1) = colCount f x n + 1 := by
        rw [colCount_succ, if_pos hE]
      by_cases hW : writeY = (n : Int)
      · rw [if_neg (fun hh => hh hW)]
        obtain ⟨ih0, ih1, ih2a, ih2b⟩ := ih (writeY - 1) f (by omega) (by omega)
          (fun z hz1 hz2 => by exfalso; omega)
        refine ⟨ih0, ?_, ?_, ?_⟩
        · intro z hz
          exact ih1 z (by omega)
        · intro z hz1 hz2
          rw [hcnt] at hz2
          push_cast at hz2
          exact ih2a z hz1 (by omega)
        · intro z hz1 hz2
          rw [hcnt] at hz1
          push_cast at hz1
          by_cases hzw : z = writeY
          · subst hzw
            rw [ih1 z (by omega), hW]
            exact hE
          · exact ih2b z (by omega) (by omega)
      · rw [if_pos hW]
        have hby : 0 ≤ writeY ∧ (n : Int) < writeY := by omega
        have hinW : inBounds x writeY := ⟨hx1, hx2, hby.1, by
          show writeY < FieldHeight
          unfold FieldHeight
          omega⟩
        have hinN : inBounds x (n : Int) := ⟨hx1, hx2, by positivity, by
          show (n : Int) < FieldHeight
          unfold FieldHeight
          omega⟩
        have hf2w : ((f.PlacePuyo x writeY (f.Grid ⟨x, (n : Int)⟩)).PlacePuyo x (n : Int)
            Color.Empty).Grid ⟨x, writeY⟩ = f.Grid ⟨x, (n : Int)⟩ := by
          rw [PlacePuyo_grid, if_neg (fun hh => hW (by
            have := hh.2
            rw [Position.mk.injEq] at this
            omega))]
          rw [PlacePuyo_grid, if_pos ⟨hinW, rfl⟩]
        have hf2n : ((f.PlacePuyo x writeY (f.Grid ⟨x, (n : Int)⟩)).PlacePuyo x (n : Int)
            Color.Empty).Grid ⟨x, (n : Int)⟩ = Color.Empty := by
          rw [PlacePuyo_grid, if_pos ⟨hinN, rfl⟩]
        have hf2main : ∀ z : Int, z ≠ writeY → z ≠ (n : Int) →
            ((f.PlacePuyo x writeY (f.Grid ⟨x, (n : Int)⟩)).PlacePuyo x (n : Int)
              Color.Empty).Grid ⟨x, z⟩ = f.Grid ⟨x, z⟩ := by
          intro z hzw hzn
          rw [PlacePuyo_grid, if_neg (fun hh => hzn (by
            have := hh.2
            rw [Position.mk.injEq] at this
            exact this.2))]
          rw [PlacePuyo_grid, if_neg (fun hh => hzw (by
            have := hh.2
            rw [Position.mk.injEq] at this
            exact this.2))]
        have hf2other : ∀ p : Position, p.X ≠ x →
            ((f.PlacePuyo x writeY (f.Grid ⟨x, (n : Int)⟩)).PlacePuyo x (n : Int)
              Color.Empty).Grid p = f.Grid p := by
          intro p hp
          rw [PlacePuyo_grid, if_neg (fun hh => hp (by
            have := hh.2
            rw [show p = (⟨x, (n : Int)⟩ : Position) from this]))]
          rw [PlacePuyo_grid, if_neg (fun hh => hp (by
            have := hh.2
            rw [show p = (⟨x, writeY⟩ : Position) from this]))]
        have hc2 : colCount ((f.PlacePuyo x writeY (f.Grid ⟨x, (n : Int)⟩)).PlacePuyo x
            (n : Int) Color.Empty) x n = colCount f x n := by
          refine colCount_congr f _ x n ?_
          intro z hz1 hz2
          exact hf2main z (by omega) (by omega)
        obtain ⟨ih0, ih1, ih2a, ih2b⟩ := ih (writeY - 1) _ (by omega) (by omega)
          (fun z hz1 hz2 => by
            by_cases hzn : z = (n : Int)
            · rw [hzn]; exact hf2n
            · rw [hf2main z (by omega) hzn]
              exact hP2 z (by omega) (by omega))
        refine ⟨?_, ?_, ?_, ?_⟩
        · intro p hp
          rw [ih0 p hp, hf2other p hp]
        · intro z hz
          rw [ih1 z (by omega), hf2main z (by omega) (by omega)]
        · intro z hz1 hz2
          rw [hcnt] at hz2
          push_cast at hz2
          rw [hc2] at ih2a
          exact ih2a z hz1 (by omega)
        · intro z hz1 hz2
          rw [hcnt] at hz1
          push_cast at hz1
          rw [hc2] at ih2b
          by_cases hzw : z = writeY
          · subst hzw
            rw [ih1 z (by omega), hf2w]
            exact hE
          · exact ih2b z (by omega) (by omega)

/-- `applyGravity` is the fold of the column passes over the six
columns. -/
theorem applyGravityField_eq (f : Field) :
    f.applyGravity = (List.range 6).foldl gravityStep f := rfl

/-- The top-level column pass leaves other columns unchanged and
compacts column `x`. -/
theorem gravityColumn_top_spec (x : Int) (hx1 : 0 ≤ x) (hx2 : x < 6) (f : Field) :
    (∀ p : Position, p.X ≠ x → (gravityColumn x (downFrom 12) 11 f).Grid p = f.Grid p) ∧
    compactedCol (gravityColumn x (downFrom 12) 11 f) x := by
  obtain ⟨ih0, ih1, ih2a, ih2b⟩ := gravityColumn_spec x hx1 hx2 12 11 f
    (by norm_num) (by norm_num)
    (fun z hz1 hz2 => by exfalso; push_cast at hz1; omega)
  refine ⟨ih0, ?_⟩
  intro z z' h1 h2 h3 h4
  have h3' : z' < 12 := h3
  have hk : 0 ≤ (colCount f x 12 : Int) := by positivity
  by_cases hle : z ≤ 11 - (colCount f x 12 : Int)
  · exact absurd (ih2a z h1 hle) h4
  · exact ih2b z' (by omega) (by omega)

/-- Identity of the column pass on a column that is already compacted,
generalized over the loop suffix. -/
theorem gravityColumn_id_aux (x : Int) (n : Nat) :
    ∀ (writeY : Int) (f : Field),
      (∀ z : Int, (n : Int) ≤ z → z ≤ writeY → f.Grid ⟨x, z⟩ = Color.Empty) →
      (∀ z z' : Int, 0 ≤ z → z ≤ z' → z' < (n : Int) →
        f.Grid ⟨x, z⟩ ≠ Color.Empty → f.Grid ⟨x, z'⟩ ≠ Color.Empty) →
      ((∃ z : Int, 0 ≤ z ∧ z < (n : Int) ∧ f.Grid ⟨x, z⟩ ≠ Color.Empty) →
        writeY = (n : Int) - 1) →
      gravityColumn x (downFrom n) writeY f = f := by
  induction n with
  | zero =>
    intro writeY f _ _ _
    rfl
  | succ n ih =>
    intro writeY f hQ1 hQ2 hQ3
    rw [downFrom_succ, gravityColumn_cons]
    by_cases hE : f.Grid ⟨x, (n : Int)⟩ = Color.Empty
    · rw [if_neg (fun hh => hh hE)]
      refine ih writeY f ?_ ?_ ?_
      · intro z hz1 hz2
        by_cases hzn : z = (n : Int)
        · rw [hzn]; exact hE
        · exact hQ1 z (by push_cast; omega) hz2
      · intro z z' h1 h2 h3 h4
        exact hQ2 z z' h1 h2 (by push_cast; omega) h4
      · rintro ⟨z, hz1, hz2, hz3⟩
        exact absurd hE (hQ2 z (n : Int) hz1 (by omega) (by push_cast; omega) hz3)
    · rw [if_pos hE]
      have hw : writeY = (n : Int) := by
        have hq := hQ3 ⟨(n : Int), by positivity, by push_cast; omega, hE⟩
        push_cast at hq
        omega
      rw [if_neg (fun hh => hh hw)]
      refine ih (writeY - 1) f ?_ ?_ ?_
      · intro z hz1 hz2
        exfalso
        omega
      · intro z z' h1 h2 h3 h4
        exact hQ2 z z' h1 h2 (by push_cast; omega) h4
      · intro _
        omega

/-- The column pass is the identity on compacted columns. -/
theorem gravityColumn_id (x : Int) (f : Field) (h : compactedCol f x) :
    gravityColumn x (downFrom 12) 11 f = f := by
  refine gravityColumn_id_aux x 12 11 f ?_ ?_ ?_
  · intro z hz1 hz2
    exfalso
    push_cast at hz1
    omega
  · intro z z' h1 h2 h3 h4
    refine h z z' h1 h2 ?_ h4
    show z' < FieldHeight
    push_cast at h3
    exact h3
  · intro _
    norm_num

/-- The gravity fold leaves columns outside the processed list
unchanged. -/
theorem gravityFold_other (xs : List Nat) :
    ∀ (f : Field) (p : Position),
      (∀ xn ∈ xs, xn < 6) →
      (∀ xn ∈ xs, ((xn : Nat) : Int) ≠ p.X) →
      (xs.foldl gravityStep f).Grid p = f.Grid p := by
  induction xs with
  | nil =>
    intro f p _ _
    rfl
  | cons a rest ihx =>
    intro f p hb hp
    rw [List.foldl_cons]
    rw [ihx _ p (fun xn hxn => hb xn (List.mem_cons_of_mem a hxn))
        (fun xn hxn => hp xn (List.mem_cons_of_mem a hxn))]
    exact (gravityColumn_top_spec (a : Int) (by positivity)
      (by exact_mod_cast hb a (List.mem_cons_self a rest)) f).1 p
      (Ne.symm (hp a (List.mem_cons_self a rest)))

/-- Compactedness transfers along pointwise equality of a column. -/
theorem compactedCol_congr (f r : Field) (x : Int)
    (h : ∀ z : Int, r.Grid ⟨x, z⟩ = f.Grid ⟨x, z⟩) (hc : compactedCol f x) :
    compactedCol r x := by
  intro z z' h1 h2 h3 h4
  rw [h z']
  rw [h z] at h4
  exact hc z z' h1 h2 h3 h4

/-- After the gravity fold, every processed column is compacted. -/
theorem gravityFold_compacted (xs : List Nat) :
    ∀ f : Field, xs.Nodup → (∀ xn ∈ xs, xn < 6) →
      ∀ xn ∈ xs, compactedCol (xs.foldl gravityStep f) (xn : Int) := by
  induction xs with
  | nil =>
    intro f _ _ xn hxn
    exact absurd hxn (List.not_mem_nil xn)
  | cons a rest ihx =>
    intro f hnd hb xn hxn
    rw [List.foldl_cons]
    rcases List.mem_cons.mp hxn with rfl | hmem
    · refine compactedCol_congr (gravityStep f xn) _ (xn : Int) ?_ ?_
      · intro z
        refine gravityFold_other rest _ ⟨(xn : Int), z⟩
          (fun q hq => hb q (List.mem_cons_of_mem xn hq)) ?_
        intro q hq
        have hqa : q ≠ xn := by
          intro hqe
          rw [hqe] at hq
          exact (List.nodup_cons.mp hnd).1 hq
        intro hcast
        have hcast2 : (q : Int) = (xn : Int) := hcast
        exact hqa (by exact_mod_cast hcast2)
      · exact (gravityColumn_top_spec (xn : Int) (by positivity)
          (by exact_mod_cast hb xn (List.mem_cons_self xn rest)) f).2
    · exact ihx (gravityStep f a) (List.nodup_cons.mp hnd).2
        (fun q hq => hb q (List.mem_cons_of_mem a hq)) xn hmem

/-- The gravity fold is the identity when every processed column is
already compacted. -/
theorem gravityFold_id (xs : List Nat) :
    ∀ f : Field, (∀ xn ∈ xs, compactedCol f (xn : Int)) →
      xs.foldl gravityStep f = f := by
  induction xs with
  | nil =>
    intro f _
    rfl
  | cons a rest ihx =>
    intro f hc
    rw [List.foldl_cons]
    rw [show gravityStep f a = f from
      gravityColumn_id (a : Int) f (hc a (List.mem_cons_self a rest))]
    exact ihx f (fun q hq => hc q (List.mem_cons_of_mem a hq))

/-- C9: gravity compaction is idempotent, on fields and on games:
applying `applyGravity` twice yields the same grid as applying it
once. -/
theorem applyGravity_idempotent :
    (∀ f : Field, f.applyGravity.applyGravity = f.applyGravity) ∧
    (∀ g : Game, g.applyGravity.applyGravity = g.applyGravity) := by
  have hfield : ∀ f : Field, f.applyGravity.applyGravity = f.applyGravity := by
    intro f
    rw [show f.applyGravity.applyGravity =
          (List.range 6).foldl gravityStep f.applyGravity from applyGravityField_eq _]
    refine gravityFold_id _ f.applyGravity ?_
    intro xn hxn
    rw [applyGravityField_eq]
    refine gravityFold_compacted _ f (List.nodup_range 6) ?_ xn hxn
    intro q hq
    exact List.mem_range.mp hq
  refine ⟨hfield, ?_⟩
  intro g
  have h2 : g.applyGravity.applyGravity =
      { g.applyGravity with Field := g.applyGravity.Field.applyGravity } :=
    applyGravity_eq _
  have h3 : g.applyGravity.Field = g.Field.applyGravity := by rw [applyGravity_eq g]
  rw [h2, h3, hfield g.Field, applyGravity_eq g]

/-! ### Flood-fill correctness -/

/-- `allPositions` enumerates exactly the in-bounds cells. -/
theorem mem_allPositions (p : Position) :
    p ∈ allPositions ↔ inBounds p.X p.Y := by
  obtain ⟨px, py⟩ := p
  have hW : FieldWidth.toNat = 6 := rfl
  have hH : FieldHeight.toNat = 12 := rfl
  constructor
  · intro hmem
    unfold allPositions at hmem
    rw [List.mem_flatMap] at hmem
    obtain ⟨y, hy, hin⟩ := hmem
    rw [List.mem_map] at hin
    obtain ⟨x, hx, heq⟩ := hin
    rw [List.mem_range, hH] at hy
    rw [List.mem_range, hW] at hx
    rw [Position.mk.injEq] at heq
    obtain ⟨h1, h2⟩ := heq
    simp only [Int.ofNat_eq_coe] at h1 h2
    show 0 ≤ px ∧ px < 6 ∧ 0 ≤ py ∧ py < 12
    refine ⟨?_, ?_, ?_, ?_⟩ <;> omega
  · intro hb
    have hb4 : 0 ≤ px ∧ px < 6 ∧ 0 ≤ py ∧ py < 12 := hb
    unfold allPositions
    rw [List.mem_flatMap]
    refine ⟨py.toNat, ?_, ?_⟩
    · rw [List.mem_range, hH]
      omega
    · rw [List.mem_map]
      refine ⟨px.toNat, ?_, ?_⟩
      · rw [List.mem_range, hW]
        omega
      · rw [Position.mk.injEq]
        simp only [Int.ofNat_eq_coe]
        constructor <;> omega

/-- Unfolding equation of the flood fill at positive fuel. -/
theorem findConnectedGroup_succ (f : Field) (c : Color) (fuel : Nat) (x y : Int)
    (visited : Finset Position) :
    findConnectedGroup f c (fuel + 1) x y visited =
      if x < 0 ∨ FieldWidth ≤ x ∨ y < 0 ∨ FieldHeight ≤ y then visited
      else if f.Grid ⟨x, y⟩ ≠ c ∨ ⟨x, y⟩ ∈ visited then visited
      else
        findConnectedGroup f c fuel x (y - 1)
          (findConnectedGroup f c fuel x (y + 1)
            (findConnectedGroup f c fuel (x - 1) y
              (findConnectedGroup f c fuel (x + 1) y
                (insert ⟨x, y⟩ visited)))) := rfl

/-- The flood fill leaves the visited set unchanged at a cell that is
out of bounds or off-color. -/
theorem findConnectedGroup_not_good (f : Field) (c : Color) (fuel : Nat) (x y : Int)
    (visited : Finset Position) (h : ¬ isGood f c ⟨x, y⟩) :
    findConnectedGroup f c fuel x y visited = visited := by
  cases fuel with
  | zero => rfl
  | succ fuel =>
    rw [findConnectedGroup_succ]
    by_cases hb : x < 0 ∨ FieldWidth ≤ x ∨ y < 0 ∨ FieldHeight ≤ y
    · rw [if_pos hb]
    · rw [if_neg hb]
      push_neg at hb
      rw [if_pos (Or.inl (fun hc => h ⟨⟨hb.1, hb.2.1, hb.2.2.1, hb.2.2.2⟩, hc⟩))]

/-- The flood fill only grows the visited set. -/
theorem findConnectedGroup_mono (f : Field) (c : Color) (fuel : Nat) :
    ∀ (x y : Int) (visited : Finset Position),
      visited ⊆ findConnectedGroup f c fuel x y visited := by
  induction fuel with
  | zero =>
    intro x y visited
    exact Finset.Subset.refl _
  | succ fuel ih =>
    intro x y visited
    rw [findConnectedGroup_succ]
    by_cases hb : x < 0 ∨ FieldWidth ≤ x ∨ y < 0 ∨ FieldHeight ≤ y
    · rw [if_pos hb]
    · rw [if_neg hb]
      by_cases hg : f.Grid ⟨x, y⟩ ≠ c ∨ ⟨x, y⟩ ∈ visited
      · rw [if_pos hg]
      · rw [if_neg hg]
        intro q hq
        exact ih x (y - 1) _ (ih x (y + 1) _ (ih (x - 1) y _ (ih (x + 1) y _
          (Finset.mem_insert_of_mem hq))))

/-- A good cell with positive fuel enters its own flood fill. -/
theorem findConnectedGroup_self (f : Field) (c : Color) (fuel : Nat) (x y : Int)
    (visited : Finset Position) (hg : isGood f c ⟨x, y⟩) :
    (⟨x, y⟩ : Position) ∈ findConnectedGroup f c (fuel + 1) x y visited := by
  rw [findConnectedGroup_succ]
  obtain ⟨hb, hc⟩ := hg
  have hb4 : 0 ≤ x ∧ x < FieldWidth ∧ 0 ≤ y ∧ y < FieldHeight := hb
  rw [if_neg (by push_neg; exact ⟨hb4.1, hb4.2.1, hb4.2.2.1, hb4.2.2.2⟩)]
  by_cases hv : (⟨x, y⟩ : Position) ∈ visited
  · rw [if_pos (Or.inr hv)]
    exact hv
  · rw [if_neg (by push_neg; exact ⟨hc, hv⟩)]
    exact findConnectedGroup_mono f c fuel x (y - 1) _
      (findConnectedGroup_mono f c fuel x (y + 1) _
        (findConnectedGroup_mono f c fuel (x - 1) y _
          (findConnectedGroup_mono f c fuel (x + 1) y _
            (Finset.mem_insert_self _ _))))

/-- Adjacency is symmetric. -/
theorem adjacent_symm {p q : Position} (h : adjacent p q) : adjacent q p := by
  obtain ⟨px, py⟩ := p
  obtain ⟨qx, qy⟩ := q
  unfold adjacent at h ⊢
  dsimp only at h ⊢
  omega

/-- A same-color step is symmetric. -/
theorem sameColorStep_symm {f : Field} {c : Color} {p q : Position}
    (h : sameColorStep f c p q) : sameColorStep f c q p :=
  ⟨h.2.1, h.1, adjacent_symm h.2.2⟩

/-- Connectivity is symmetric. -/
theorem reaches_symm {f : Field} {c : Color} {p q : Position}
    (h : reaches f c p q) : reaches f c q p := by
  induction h with
  | refl => exact Relation.ReflTransGen.refl
  | tail _ hbc ih => exact Relation.ReflTransGen.head (sameColorStep_symm hbc) ih

/-- Connectivity is transitive along goodness. -/
theorem reaches_good {f : Field} {c : Color} {p q : Position}
    (h : reaches f c p q) (hp : isGood f c p) : isGood f c q := by
  induction h with
  | refl => exact hp
  | tail _ hbc _ => exact hbc.2.1

/-- Every cell belongs to its own component. -/
theorem mem_comp_self (f : Field) (p : Position) : p ∈ comp f p :=
  Relation.ReflTransGen.refl

/-- A member of a component has the same component. -/
theorem comp_shift (f : Field) {p q : Position} (h : q ∈ comp f p) :
    comp f q = comp f p := by
  have hq : reaches f (f.Grid p) p q := h
  rcases Relation.ReflTransGen.cases_tail hq with heq | ⟨b, _, hbq⟩
  · rw [heq]
  · have hcq : f.Grid q = f.Grid p := hbq.2.1.2
    ext r
    show reaches f (f.Grid q) q r ↔ reaches f (f.Grid p) p r
    rw [hcq]
    constructor
    · intro hr
      exact Relation.ReflTransGen.trans hq hr
    · intro hr
      exact Relation.ReflTransGen.trans (reaches_symm hq) hr

/-- A good cell with positive fuel enters its own flood fill. -/
theorem findConnectedGroup_self_pos (f : Field) (c : Color) (fuel : Nat)
    (x y : Int) (visited : Finset Position) (hfuel : 0 < fuel)
    (hg : isGood f c ⟨x, y⟩) :
    (⟨x, y⟩ : Position) ∈ findConnectedGroup f c fuel x y visited := by
  cases fuel with
  | zero => exact absurd hfuel (by omega)
  | succ fuel => exact findConnectedGroup_self f c fuel x y visited hg

/-- Soundness of the flood fill: every visited cell was either already
visited or is connected to the seed through same-colored cells. -/
theorem findConnectedGroup_sound (f : Field) (c : Color) :
    ∀ (fuel : Nat) (x y : Int) (visited : Finset Position) (q : Position),
      q ∈ findConnectedGroup f c fuel x y visited →
      q ∈ visited ∨ (isGood f c ⟨x, y⟩ ∧ reaches f c ⟨x, y⟩ q) := by
  intro fuel
  induction fuel with
  | zero =>
    intro x y visited q hq
    exact Or.inl hq
  | succ fuel ih =>
    intro x y visited q hq
    rw [findConnectedGroup_succ] at hq
    by_cases hb : x < 0 ∨ FieldWidth ≤ x ∨ y < 0 ∨ FieldHeight ≤ y
    · rw [if_pos hb] at hq
      exact Or.inl hq
    · rw [if_neg hb] at hq
      by_cases hg : f.Grid ⟨x, y⟩ ≠ c ∨ ⟨x, y⟩ ∈ visited
      · rw [if_pos hg] at hq
        exact Or.inl hq
      · rw [if_neg hg] at hq
        push_neg at hb hg
        have hp : isGood f c ⟨x, y⟩ := ⟨⟨hb.1, hb.2.1, hb.2.2.1, hb.2.2.2⟩, hg.1⟩
        rcases ih x (y - 1) _ q hq with h3 | ⟨hg4, hr4⟩
        · rcases ih x (y + 1) _ q h3 with h2 | ⟨hg3, hr3⟩
          · rcases ih (x - 1) y _ q h2 with h1 | ⟨hg2, hr2⟩
            · rcases ih (x + 1) y _ q h1 with h0 | ⟨hg1, hr1⟩
              · rcases Finset.mem_insert.mp h0 with rfl | hv
                · exact Or.inr ⟨hp, Relation.ReflTransGen.refl⟩
                · exact Or.inl hv
              · exact Or.inr ⟨hp, Relation.ReflTransGen.head
                  ⟨hp, hg1, Or.inl ⟨rfl, rfl⟩⟩ hr1⟩
            · exact Or.inr ⟨hp, Relation.ReflTransGen.head
                ⟨hp, hg2, Or.inr (Or.inl ⟨rfl, rfl⟩)⟩ hr2⟩
          · exact Or.inr ⟨hp, Relation.ReflTransGen.head
              ⟨hp, hg3, Or.inr (Or.inr (Or.inl ⟨rfl, rfl⟩))⟩ hr3⟩
        · exact Or.inr ⟨hp, Relation.ReflTransGen.head
            ⟨hp, hg4, Or.inr (Or.inr (Or.inr ⟨rfl, rfl⟩))⟩ hr4⟩

/-- There are fewer `c`-colored cells than flood-fill fuel. -/
theorem goodCells_card_lt_floodFuel (f : Field) (c : Color) :
    (goodCells f c).card < floodFuel := by
  have h1 : (goodCells f c).card ≤ allPositions.toFinset.card :=
    Finset.card_filter_le _ _
  have h2 : allPositions.toFinset.card ≤ allPositions.length :=
    allPositions.toFinset_card_le
  have h3 : allPositions.length = 72 := rfl
  have h4 : floodFuel = 73 := rfl
  omega

/-- Closure of the flood fill: with enough fuel, every cell freshly
added by the fill has all its same-color neighbours in the result. -/
theorem findConnectedGroup_closed (f : Field) (c : Color) :
    ∀ (fuel : Nat) (x y : Int) (visited : Finset Position),
      (goodCells f c \ visited).card < fuel →
      ∀ q ∈ findConnectedGroup f c fuel x y visited, q ∉ visited →
      ∀ r, sameColorStep f c q r →
        r ∈ findConnectedGroup f c fuel x y visited := by
  intro fuel
  induction fuel with
  | zero =>
    intro x y visited hcard
    exact absurd hcard (Nat.not_lt_zero _)
  | succ fuel ih =>
    intro x y visited hcard q hq hqv r hstep
    rw [findConnectedGroup_succ] at hq ⊢
    by_cases hb : x < 0 ∨ FieldWidth ≤ x ∨ y < 0 ∨ FieldHeight ≤ y
    · rw [if_pos hb] at hq ⊢
      exact absurd hq hqv
    · rw [if_neg hb] at hq ⊢
      by_cases hg : f.Grid ⟨x, y⟩ ≠ c ∨ ⟨x, y⟩ ∈ visited
      · rw [if_pos hg] at hq ⊢
        exact absurd hq hqv
      · rw [if_neg hg] at hq ⊢
        push_neg at hb hg
        have hpgood : (⟨x, y⟩ : Position) ∈ goodCells f c := by
          unfold goodCells
          rw [Finset.mem_filter, List.mem_toFinset, mem_allPositions]
          exact ⟨⟨hb.1, hb.2.1, hb.2.2.1, hb.2.2.2⟩, hg.1⟩
        have hpmem : (⟨x, y⟩ : Position) ∈ goodCells f c \ visited :=
          Finset.mem_sdiff.mpr ⟨hpgood, hg.2⟩
        have hcard0 :
            (goodCells f c \ insert (⟨x, y⟩ : Position) visited).card < fuel := by
          rw [Finset.sdiff_insert]
          have he := Finset.card_erase_of_mem hpmem
          have hpos : 0 < (goodCells f c \ visited).card :=
            Finset.card_pos.mpr ⟨_, hpmem⟩
          omega
        have hfuel : 0 < fuel := by omega
        set V0 := insert (⟨x, y⟩ : Position) visited with hV0
        set V1 := findConnectedGroup f c fuel (x + 1) y V0 with hV1
        set V2 := findConnectedGroup f c fuel (x - 1) y V1 with hV2
        set V3 := findConnectedGroup f c fuel x (y + 1) V2 with hV3
        have hs01 : V0 ⊆ V1 := findConnectedGroup_mono f c fuel (x + 1) y V0
        have hs12 : V1 ⊆ V2 := findConnectedGroup_mono f c fuel (x - 1) y V1
        have hs23 : V2 ⊆ V3 := findConnectedGroup_mono f c fuel x (y + 1) V2
        have hs3R : V3 ⊆ findConnectedGroup f c fuel x (y - 1) V3 :=
          findConnectedGroup_mono f c fuel x (y - 1) V3
        have hcard1 : (goodCells f c \ V1).card < fuel :=
          Nat.lt_of_le_of_lt
            (Finset.card_le_card (Finset.sdiff_subset_sdiff
              (Finset.Subset.refl _) hs01)) hcard0
        have hcard2 : (goodCells f c \ V2).card < fuel :=
          Nat.lt_of_le_of_lt
            (Finset.card_le_card (Finset.sdiff_subset_sdiff
              (Finset.Subset.refl _) (hs01.trans hs12))) hcard0
        have hcard3 : (goodCells f c \ V3).card < fuel :=
          Nat.lt_of_le_of_lt
            (Finset.card_le_card (Finset.sdiff_subset_sdiff
              (Finset.Subset.refl _) ((hs01.trans hs12).trans hs23))) hcard0
        by_cases hqp : q = ⟨x, y⟩
        · subst hqp
          obtain ⟨_, hrgood, hadj⟩ := hstep
          obtain ⟨rx, ry⟩ := r
          rcases hadj with ⟨h1, h2⟩ | ⟨h1, h2⟩ | ⟨h1, h2⟩ | ⟨h1, h2⟩
          · have hr' : (⟨rx, ry⟩ : Position) = ⟨x + 1, y⟩ := by
              have h1' : rx = x + 1 := h1
              have h2' : ry = y := h2
              rw [h1', h2']
            rw [hr'] at hrgood ⊢
            exact hs3R (hs23 (hs12
              (findConnectedGroup_self_pos f c fuel (x + 1) y V0 hfuel hrgood)))
          · have hr' : (⟨rx, ry⟩ : Position) = ⟨x - 1, y⟩ := by
              have h1' : rx = x - 1 := h1
              have h2' : ry = y := h2
              rw [h1', h2']
            rw [hr'] at hrgood ⊢
            exact hs3R (hs23
              (findConnectedGroup_self_pos f c fuel (x - 1) y V1 hfuel hrgood))
          · have hr' : (⟨rx, ry⟩ : Position) = ⟨x, y + 1⟩ := by
              have h1' : rx = x := h1
              have h2' : ry = y + 1 := h2
              rw [h1', h2']
            rw [hr'] at hrgood ⊢
            exact hs3R
              (findConnectedGroup_self_pos f c fuel x (y + 1) V2 hfuel hrgood)
          · have hr' : (⟨rx, ry⟩ : Position) = ⟨x, y - 1⟩ := by
              have h1' : rx = x := h1
              have h2' : ry = y - 1 := h2
              rw [h1', h2']
            rw [hr'] at hrgood ⊢
            exact findConnectedGroup_self_pos f c fuel x (y - 1) V3 hfuel hrgood
        · have hqv0 : q ∉ V0 := by
            rw [hV0, Finset.mem_insert]
            push_neg
            exact ⟨hqp, hqv⟩
          by_cases h1 : q ∈ V1
          · exact hs3R (hs23 (hs12 (ih (x + 1) y V0 hcard0 q h1 hqv0 r hstep)))
          · by_cases h2 : q ∈ V2
            · exact hs3R (hs23 (ih (x - 1) y V1 hcard1 q h2 h1 r hstep))
            · by_cases h3 : q ∈ V3
              · exact hs3R (ih x (y + 1) V2 hcard2 q h3 h2 r hstep)
              · exact ih x (y - 1) V3 hcard3 q hq h3 r hstep

/-- Completeness of the flood fill from an empty visited set: with
enough fuel it reaches the seed's whole component. -/
theorem findConnectedGroup_complete (f : Field) (c : Color) (fuel : Nat)
    (p : Position) (hcard : (goodCells f c).card < fuel) (hp : isGood f c p) :
    ∀ q, reaches f c p q → q ∈ findConnectedGroup f c fuel p.X p.Y ∅ := by
  intro q hq
  induction hq with
  | refl =>
    exact findConnectedGroup_self_pos f c fuel p.X p.Y ∅ (by omega) hp
  | tail _ hbc ih =>
    exact findConnectedGroup_closed f c fuel p.X p.Y ∅
      (by rw [Finset.sdiff_empty]; exact hcard) _ ih
      (Finset.not_mem_empty _) _ hbc

/-- The flood fill seeded at an in-bounds cell computes exactly that
cell's connected component. -/
theorem findConnectedGroup_eq_comp (f : Field) (p : Position)
    (hin : inBounds p.X p.Y) :
    ↑(findConnectedGroup f (f.Grid p) floodFuel p.X p.Y ∅) = comp f p := by
  ext q
  constructor
  · intro hq
    rcases findConnectedGroup_sound f (f.Grid p) floodFuel p.X p.Y ∅ q hq with
      h | ⟨_, hr⟩
    · exact absurd h (Finset.not_mem_empty _)
    · exact hr
  · intro hq
    exact findConnectedGroup_complete f (f.Grid p) floodFuel p
      (goodCells_card_lt_floodFuel f (f.Grid p)) ⟨hin, rfl⟩ q hq

/-- A field that only differs from `f` by blanking cells outside the
component of `r` has the same component at `r`. -/
theorem comp_agree (f fld : Field) (r : Position)
    (hsub : ∀ q, fld.Grid q = f.Grid q ∨ fld.Grid q = Color.Empty)
    (hagree : ∀ q, q ∈ comp f r → fld.Grid q = f.Grid q)
    (hne : f.Grid r ≠ Color.Empty) :
    comp fld r = comp f r := by
  have hr : fld.Grid r = f.Grid r := hagree r (mem_comp_self f r)
  ext q
  show reaches fld (fld.Grid r) r q ↔ reaches f (f.Grid r) r q
  rw [hr]
  constructor
  · intro h
    induction h with
    | refl => exact Relation.ReflTransGen.refl
    | tail _ hbc ih =>
      refine ih.tail ⟨?_, ?_, hbc.2.2⟩
      · obtain ⟨hbI, hbC⟩ := hbc.1
        refine ⟨hbI, ?_⟩
        rcases hsub _ with h' | h'
        · rw [← h']
          exact hbC
        · rw [h'] at hbC
          exact absurd hbC.symm hne
      · obtain ⟨hqI, hqC⟩ := hbc.2.1
        refine ⟨hqI, ?_⟩
        rcases hsub _ with h' | h'
        · rw [← h']
          exact hqC
        · rw [h'] at hqC
          exact absurd hqC.symm hne
  · intro h
    induction h with
    | refl => exact Relation.ReflTransGen.refl
    | tail hab hbc ih =>
      refine ih.tail ⟨?_, ?_, hbc.2.2⟩
      · obtain ⟨hbI, hbC⟩ := hbc.1
        exact ⟨hbI, (hagree _ hab).trans hbC⟩
      · obtain ⟨hqI, hqC⟩ := hbc.2.1
        exact ⟨hqI, (hagree _ (hab.tail hbc)).trans hqC⟩

/-- One `clearPuyos` scan step preserves the invariant, only grows the
visited set, and covers the scanned cell when it is occupied in the
original field. -/
theorem clearStep_inv (f fld : Field) (V : Finset Position) (b : Bool)
    (r : Position) (hr : inBounds r.X r.Y) (h : clearInv f (fld, V, b)) :
    clearInv f (clearStep (fld, V, b) r) ∧
    V ⊆ (clearStep (fld, V, b) r).2.1 ∧
    (f.Grid r ≠ Color.Empty → r ∈ (clearStep (fld, V, b) r).2.1) := by
  have hV : ∀ q ∈ V,
      inBounds q.X q.Y ∧ f.Grid q ≠ Color.Empty ∧ comp f q ⊆ ↑V := h.1
  have hG : ∀ q : Position,
      (q ∈ V ∧ MinChain ≤ (comp f q).ncard → fld.Grid q = Color.Empty) ∧
      (¬(q ∈ V ∧ MinChain ≤ (comp f q).ncard) → fld.Grid q = f.Grid q) := h.2
  have hstep_eq : clearStep (fld, V, b) r =
      if fld.Grid r ≠ Color.Empty ∧ r ∉ V then
        if MinChain ≤ (findConnectedGroup fld (fld.Grid r) floodFuel r.X r.Y ∅).card then
          (clearGroup fld (findConnectedGroup fld (fld.Grid r) floodFuel r.X r.Y ∅),
           V ∪ findConnectedGroup fld (fld.Grid r) floodFuel r.X r.Y ∅, true)
        else (fld, V ∪ findConnectedGroup fld (fld.Grid r) floodFuel r.X r.Y ∅, b)
      else (fld, V, b) := rfl
  by_cases hg : fld.Grid r ≠ Color.Empty ∧ r ∉ V
  · have hfr : fld.Grid r = f.Grid r := (hG r).2 (fun hc => hg.2 hc.1)
    have hfne : f.Grid r ≠ Color.Empty := hfr ▸ hg.1
    have hdisj : ∀ q ∈ comp f r, q ∉ V := by
      intro q hq hqV
      have h3 := (hV q hqV).2.2
      have h4 : comp f q = comp f r := comp_shift f hq
      have h5 : r ∈ comp f q := by
        rw [h4]
        exact mem_comp_self f r
      exact hg.2 (Finset.mem_coe.mp (h3 h5))
    have hagree : ∀ q, q ∈ comp f r → fld.Grid q = f.Grid q :=
      fun q hq => (hG q).2 (fun hc => hdisj q hq hc.1)
    have hsub : ∀ q, fld.Grid q = f.Grid q ∨ fld.Grid q = Color.Empty := by
      intro q
      by_cases hc : q ∈ V ∧ MinChain ≤ (comp f q).ncard
      · exact Or.inr ((hG q).1 hc)
      · exact Or.inl ((hG q).2 hc)
    have hcomp : comp fld r = comp f r := comp_agree f fld r hsub hagree hfne
    have hgrp :
        ↑(findConnectedGroup fld (fld.Grid r) floodFuel r.X r.Y ∅) = comp f r := by
      rw [findConnectedGroup_eq_comp fld r hr]
      exact hcomp
    set grp := findConnectedGroup fld (fld.Grid r) floodFuel r.X r.Y ∅ with hgrpdef
    have hncard : ∀ q, q ∈ comp f r → (comp f q).ncard = grp.card := by
      intro q hq
      rw [comp_shift f hq, ← hgrp, Set.ncard_coe_Finset]
    have hrmem : r ∈ grp := by
      rw [← Finset.mem_coe, hgrp]
      exact mem_comp_self f r
    have hgood : ∀ q, q ∈ comp f r → inBounds q.X q.Y ∧ f.Grid q = f.Grid r := by
      intro q hq
      have hg' := reaches_good hq ⟨hr, rfl⟩
      exact ⟨hg'.1, hg'.2⟩
    by_cases hbig : MinChain ≤ grp.card
    · rw [hstep_eq, if_pos hg, if_pos hbig]
      refine ⟨⟨?_, ?_⟩, ?_, ?_⟩
      · intro q hq
        rcases Finset.mem_union.mp hq with hqV | hqg
        · exact ⟨(hV q hqV).1, (hV q hqV).2.1,
            (hV q hqV).2.2.trans (Finset.coe_subset.mpr Finset.subset_union_left)⟩
        · have hqc : q ∈ comp f r := by
            rw [← hgrp]
            exact Finset.mem_coe.mpr hqg
          refine ⟨(hgood q hqc).1, ?_, ?_⟩
          · rw [(hgood q hqc).2]
            exact hfne
          · rw [comp_shift f hqc, ← hgrp]
            exact Finset.coe_subset.mpr Finset.subset_union_right
      · intro q
        have hcg : (clearGroup fld grp).Grid q =
            if q ∈ grp then Color.Empty else fld.Grid q := rfl
        constructor
        · intro hc
          by_cases hqg : q ∈ grp
          · rw [hcg, if_pos hqg]
          · rw [hcg, if_neg hqg]
            rcases Finset.mem_union.mp hc.1 with hqV | hqg'
            · exact (hG q).1 ⟨hqV, hc.2⟩
            · exact absurd hqg' hqg
        · intro hc
          have hqg : q ∉ grp := by
            intro hqg
            have hqc : q ∈ comp f r := by
              rw [← hgrp]
              exact Finset.mem_coe.mpr hqg
            exact hc ⟨Finset.mem_union_right _ hqg, by rw [hncard q hqc]; exact hbig⟩
          rw [hcg, if_neg hqg]
          refine (hG q).2 ?_
          intro hc'
          exact hc ⟨Finset.mem_union_left _ hc'.1, hc'.2⟩
      · exact Finset.subset_union_left
      · intro _
        exact Finset.mem_union_right _ hrmem
    · rw [hstep_eq, if_pos hg, if_neg hbig]
      refine ⟨⟨?_, ?_⟩, ?_, ?_⟩
      · intro q hq
        rcases Finset.mem_union.mp hq with hqV | hqg
        · exact ⟨(hV q hqV).1, (hV q hqV).2.1,
            (hV q hqV).2.2.trans (Finset.coe_subset.mpr Finset.subset_union_left)⟩
        · have hqc : q ∈ comp f r := by
            rw [← hgrp]
            exact Finset.mem_coe.mpr hqg
          refine ⟨(hgood q hqc).1, ?_, ?_⟩
          · rw [(hgood q hqc).2]
            exact hfne
          · rw [comp_shift f hqc, ← hgrp]
            exact Finset.coe_subset.mpr Finset.subset_union_right
      · intro q
        constructor
        · intro hc
          rcases Finset.mem_union.mp hc.1 with hqV | hqg
          · exact (hG q).1 ⟨hqV, hc.2⟩
          · have hqc : q ∈ comp f r := by
              rw [← hgrp]
              exact Finset.mem_coe.mpr hqg
            rw [hncard q hqc] at hc
            exact absurd hc.2 hbig
        · intro hc
          refine (hG q).2 ?_
          intro hc'
          exact hc ⟨Finset.mem_union_left _ hc'.1, hc'.2⟩
      · exact Finset.subset_union_left
      · intro _
        exact Finset.mem_union_right _ hrmem
  · rw [hstep_eq, if_neg hg]
    push_neg at hg
    refine ⟨h, Finset.Subset.refl V, ?_⟩
    intro hfne
    by_cases hfld : fld.Grid r = Color.Empty
    · by_cases hc : r ∈ V ∧ MinChain ≤ (comp f r).ncard
      · exact hc.1
      · have h' := (hG r).2 hc
        rw [hfld] at h'
        exact absurd h'.symm hfne
    · exact hg hfld

/-- The whole `clearPuyos` scan preserves the invariant and visits
every occupied scanned cell. -/
theorem foldl_clearStep_inv (f : Field) :
    ∀ (l : List Position) (fld : Field) (V : Finset Position) (b : Bool),
      (∀ r ∈ l, inBounds r.X r.Y) → clearInv f (fld, V, b) →
      clearInv f (l.foldl clearStep (fld, V, b)) ∧
      V ⊆ (l.foldl clearStep (fld, V, b)).2.1 ∧
      ∀ r ∈ l, f.Grid r ≠ Color.Empty →
        r ∈ (l.foldl clearStep (fld, V, b)).2.1 := by
  intro l
  induction l with
  | nil =>
    intro fld V b _ h
    exact ⟨h, Finset.Subset.refl V, fun r hr _ => absurd hr (List.not_mem_nil r)⟩
  | cons a l ih =>
    intro fld V b hbnd h
    have ha := clearStep_inv f fld V b a (hbnd a (List.mem_cons_self a l)) h
    rw [List.foldl_cons]
    rcases hst : clearStep (fld, V, b) a with ⟨fld2, V2, b2⟩
    rw [hst] at ha
    obtain ⟨h1, h2, h3⟩ := ha
    obtain ⟨g1, g2, g3⟩ :=
      ih fld2 V2 b2 (fun r hr => hbnd r (List.mem_cons_of_mem a hr)) h1
    refine ⟨g1, Finset.Subset.trans h2 g2, ?_⟩
    intro r hr hne
    rcases List.mem_cons.mp hr with hrfl | hr'
    · rw [hrfl] at hne ⊢
      exact g2 (h3 hne)
    · exact g3 r hr' hne

/-- `Field.clearPuyos`, written out as the scan fold. -/
theorem clearPuyos_eq_fold (f : Field) :
    f.clearPuyos =
      ((allPositions.foldl clearStep (f, ∅, false)).2.2,
       (allPositions.foldl clearStep (f, ∅, false)).1) := rfl

/-- The scan invariant holds at the initial state. -/
theorem clearInv_init (f : Field) : clearInv f (f, (∅ : Finset Position), false) := by
  constructor
  · intro q hq
    exact absurd hq (Finset.not_mem_empty q)
  · intro q
    constructor
    · intro hc
      exact absurd hc.1 (Finset.not_mem_empty q)
    · intro _
      rfl

/-- `foldl_clearStep_inv`, stated through a name for the scan's
result so that downstream uses never mention the fold itself. -/
theorem foldl_clearStep_inv_out (f : Field) (l : List Position) (fld : Field)
    (V : Finset Position) (b : Bool) (st : Field × Finset Position × Bool)
    (hst : l.foldl clearStep (fld, V, b) = st)
    (hbnd : ∀ r ∈ l, inBounds r.X r.Y) (h : clearInv f (fld, V, b)) :
    clearInv f st ∧ V ⊆ st.2.1 ∧
      ∀ r ∈ l, f.Grid r ≠ Color.Empty → r ∈ st.2.1 := by
  subst hst
  exact foldl_clearStep_inv f l fld V b hbnd h

/-- **C6.**  One `clearPuyos` pass blanks every in-bounds occupied cell
whose 4-neighbor same-color connected component has at least `MinChain`
(= 4) cells — all such components in the same pass — and leaves every
occupied cell whose component is smaller than `MinChain` unchanged. -/
theorem clearPuyos_groups (f : Field) (p : Position)
    (hin : inBounds p.X p.Y) (hne : f.Grid p ≠ Color.Empty) :
    (MinChain ≤ (comp f p).ncard → f.clearPuyos.2.Grid p = Color.Empty) ∧
    ((comp f p).ncard < MinChain → f.clearPuyos.2.Grid p = f.Grid p) := by
  rcases hgen : allPositions.foldl clearStep (f, (∅ : Finset Position), false)
    with ⟨F, V2, b2⟩
  obtain ⟨hinv, _, hcov⟩ := foldl_clearStep_inv_out f allPositions f ∅ false
    (F, V2, b2) hgen (fun r hr => (mem_allPositions r).mp hr) (clearInv_init f)
  have hpV : p ∈ V2 := hcov p ((mem_allPositions p).mpr hin) hne
  have hfield : f.clearPuyos.2 = F := by
    rw [clearPuyos_eq_fold f, hgen]
  constructor
  · intro hbig
    rw [hfield]
    exact (hinv.2 p).1 ⟨hpV, hbig⟩
  · intro hsmall
    rw [hfield]
    refine (hinv.2 p).2 ?_
    intro hc
    omega

set_option maxRecDepth 10000 in
/-- Witness for C6 at the concrete `mixedField`: the cell (0,11) is
in bounds and occupied, and the theorem applies to it. -/
theorem clearPuyos_groups_witness :
    inBounds (Position.mk 0 11).X (Position.mk 0 11).Y ∧
    mixedField.Grid ⟨0, 11⟩ ≠ Color.Empty ∧
    ((MinChain ≤ (comp mixedField ⟨0, 11⟩).ncard →
        mixedField.clearPuyos.2.Grid ⟨0, 11⟩ = Color.Empty) ∧
      ((comp mixedField ⟨0, 11⟩).ncard < MinChain →
        mixedField.clearPuyos.2.Grid ⟨0, 11⟩ = mixedField.Grid ⟨0, 11⟩)) :=
  ⟨by decide, by decide,
    clearPuyos_groups mixedField ⟨0, 11⟩ (by decide) (by decide)⟩

end TerminalPuyo
